import Mathlib

/-!
Verification development for the BDD engine of lovasoa/event-reduce.

The repository ships its test suite (src/javascript/test/unit/bdd.test.ts) and a
small types file, but the engine implementation itself (src/bdd/*, src/states/*)
is not part of the sources.  Following the specification (spec.md), the engine is
modelled here as a shallow embedding: an arena of nodes keyed by identifier
(spec section 9, "Shared DAG with up-references"), children stored as identifiers,
and each node storing a multiset of (parent-id, label) up-references
(spec section 3, ParentSet).  Branch labels "0"/"1" are modelled as Bool
(false for "0", true for "1"); truth-table keys and resolver states (bit strings)
are modelled as List Bool; truth-table values are Strings.
-/

/-- Modelled from the spec: the node model of section 3.  The implementation files
src/bdd/root-node.ts, src/bdd/internal-node.ts and src/bdd/leaf-node.ts are not
under src/, so nodes are modelled as one record: a Root is the node of level 0,
a Leaf carries `value = some v`, an Internal has `value = none` and level in
[1, N-1].  `parents` is the ParentSet, a multiset of (parent-id, label) pairs. -/
structure BNode where
  id : Nat
  level : Nat
  value : Option String
  b0 : Option Nat
  b1 : Option Nat
  parents : List (Nat × Bool)
deriving DecidableEq, Repr

/-- Branch access of the Branch container (spec section 4.2): label false is "0",
label true is "1". -/
def nbranch (n : BNode) (l : Bool) : Option Nat :=
  if l then n.b1 else n.b0

/-- Modelled from the spec: `hasEqualBranches()` of the Branch container
(spec section 4.2) — true iff the two children are the same node by identity
(equality of node identifiers implies identity, spec section 3). -/
def hasEqualBranches (n : BNode) : Bool :=
  match n.b0, n.b1 with
  | some a, some b => a == b
  | _, _ => false

/-- Model of `isLeafNode()`: a node is a leaf iff it carries a value. -/
def isLeafNode (n : BNode) : Bool :=
  n.value.isSome

/-- Modelled from the spec: the Diagram of section 3.  `nodes` is the node
registry (nodesById, in insertion order); the level index is the derived view
obtained by filtering `nodes` on the level attribute. -/
structure Bdd where
  depth : Nat
  rootId : Nat
  nodes : List BNode
deriving DecidableEq, Repr

/-- Look a node up by identifier in the registry. -/
def getNode (b : Bdd) (i : Nat) : Option BNode :=
  b.nodes.find? (fun n => n.id == i)

/-- Modelled from the spec: `getNodesOfLevel(L)` (spec section 4.10); order is
insertion order. -/
def getNodesOfLevel (b : Bdd) (l : Nat) : List BNode :=
  b.nodes.filter (fun n => n.level == l)

/-- Modelled from the spec: `getLeafNodes()` is shorthand for
`getNodesOfLevel(N)` (spec section 4.10). -/
def getLeafNodes (b : Bdd) : List BNode :=
  getNodesOfLevel b b.depth

/-- Modelled from the spec: `countNodes()` — total reachable nodes, leaves
included (spec section 4.10; the registry matches the reachable set by the
invariants of section 3). -/
def countNodes (b : Bdd) : Nat :=
  b.nodes.length

/-- Modelled from the spec: Node X is similar to Node Y iff X and Y are at the
same level and either both are Leaves with equal value, or both are Internals
whose "0" children are the same node by identity and whose "1" children are the
same node by identity (spec section 4.5).  The root node (level 0) is never
considered similar. -/
def isSimilarNode (x y : BNode) : Bool :=
  x.level != 0 && y.level != 0 && x.level == y.level &&
    (match x.value, y.value with
     | some v, some w => v == w
     | none, none =>
       x.b0 == y.b0 && x.b1 == y.b1 && x.b0.isSome && x.b1.isSome
     | _, _ => false)

/-- Modelled from the spec: `findSimilarNode(node, candidates)` returns the
first candidate that is similar to `node` and is not `node` itself, or null
(spec section 4.5).  Being `node` itself is modelled by identifier equality
(section 3: equality of node identifiers implies identity). -/
def findSimilarNode (x : BNode) (candidates : List BNode) : Option BNode :=
  candidates.find? (fun y => isSimilarNode x y && y.id != x.id)

/-- Numeric value of a bit-string key, most significant bit first (the model of
binaryToDecimal of src/logic-generator/binary-state.ts, which is also not under
src/). -/
def keyVal (k : List Bool) : Nat :=
  k.foldl (fun a c => 2 * a + (if c then 1 else 0)) 0

/-- Bit string of given length for a number, most significant bit first (the
model of decimalToPaddedBinary). -/
def pathOf : Nat → Nat → List Bool
  | 0, _ => []
  | l + 1, v => pathOf l (v / 2) ++ [decide (v % 2 = 1)]

/-- Identifier assigned by the builder to the node at level `l` whose path from
the root has numeric value `v`: nodes are created level by level, path by path,
so identifiers enumerate 0, 1, 2, … in that order. -/
def idOf (l v : Nat) : Nat :=
  2 ^ l - 1 + v

/-- Modelled from the spec: the node the builder (section 4.4) creates at level
`l` for the `v`-th of the 2^l paths, for a table of depth `n`: a fresh Internal
(or the Root at level 0) whose branches point at the two fresh nodes of the
next level, or a Leaf carrying the table value of its path; the parent set
records the single edge from the path's predecessor. -/
def mkNode (n : Nat) (t : List Bool → String) (l v : Nat) : BNode :=
  { id := idOf l v
    level := l
    value := if l = n then some (t (pathOf n v)) else none
    b0 := if l = n then none else some (idOf (l + 1) (2 * v))
    b1 := if l = n then none else some (idOf (l + 1) (2 * v + 1))
    parents := if l = 0 then [] else [(idOf (l - 1) (v / 2), decide (v % 2 = 1))] }

/-- Modelled from the spec: `createBddFromTruthTable(table)` (section 4.4)
produces the canonical non-reduced complete BDD of depth `n`: a Root, for each
level 1 ≤ l ≤ n-1 one fresh Internal per path, and at level n one fresh Leaf
per truth-table row (leaves are not shared at this stage).  The truth table is
the total mapping `t` from n-bit keys to values (section 4.1). -/
def createBddFromTruthTable (n : Nat) (t : List Bool → String) : Bdd :=
  { depth := n
    rootId := 0
    nodes := (List.range (n + 1)).flatMap (fun l =>
      (List.range (2 ^ l)).map (fun v => mkNode n t l v)) }

/-- Modelled from the spec: resolver functions (section 4.8) — a mapping from
variable index to a predicate on the state bit string. -/
def ResolverFunctions : Type :=
  Nat → List Bool → Bool

/-- One fueled descent step of `resolve`: at a non-leaf node of level L the
resolver of index L is applied to the state and the corresponding branch is
taken; at a leaf its value is returned (spec section 4.8).  Fuel bounds the
descent; `none` models the "no value" error. -/
def resolveNode (b : Bdd) (rs : ResolverFunctions) (state : List Bool) :
    Nat → Nat → Option String
  | 0, _ => none
  | fuel + 1, i =>
    match getNode b i with
    | none => none
    | some n =>
      match n.value with
      | some v => some v
      | none =>
        match nbranch n (rs n.level state) with
        | none => none
        | some c => resolveNode b rs state fuel c

/-- Modelled from the spec: `resolve(resolvers, state)` (section 4.8): descend
from the root; levels strictly increase along edges, so depth + 1 steps always
suffice. -/
def resolve (b : Bdd) (rs : ResolverFunctions) (state : List Bool) : Option String :=
  resolveNode b rs state (b.depth + 1) b.rootId

/-- The bit-resolvers the test suite binds: resolver i of the state returns the
i-th bit of the state (bdd.test.ts, getResolverFunctions). -/
def bitResolvers : ResolverFunctions :=
  fun i s => s.getD i false

/-- Redirect a branch: an edge that pointed at node `x` now points at node `y`
(the rewiring step shared by the two rules of spec section 4.5). -/
def redir (x y : Nat) : Option Nat → Option Nat
  | none => none
  | some c => some (if c = x then y else c)

/-- Per-node effect of merging node `x` away in favour of node `y`: every edge
that pointed at `x` is rewired to `y`; entries of `x` disappear from parent
sets (its down-edges are gone); `y` additionally absorbs `x`'s parent entries
`xps` (spec section 4.5: "rewire every edge (P, b) in X.parents to point at Y
instead, merge X's parent entries into Y's ParentSet"). -/
def mergeNode (x y : Nat) (xps : List (Nat × Bool)) (n : BNode) : BNode :=
  { n with
    b0 := redir x y n.b0
    b1 := redir x y n.b1
    parents := n.parents.filter (fun pl => pl.1 != x) ++
      (if n.id = y then xps else []) }

/-- Remove node `x` from the diagram, rewiring every edge that pointed at it to
`y` and merging its parent entries into `y`'s parent set.  Under the mirror
invariant of spec section 3 (parents reflect exactly the edges) this performs
precisely the edge list walked by the rules of section 4.5, atomically. -/
def mergeNodeInto (b : Bdd) (x y : Nat) (xps : List (Nat × Bool)) : Bdd :=
  { b with nodes := (b.nodes.filter (fun n => n.id != x)).map (mergeNode x y xps) }

/-- Modelled from the spec: `applyReductionRule()` on node X (spec section 4.5,
src/bdd/internal-node.ts and src/bdd/leaf-node.ts are not under src/): find a
similar sibling Y among the other nodes at X's level; if found, rewire every
edge in X.parents to Y, merge X's parent entries into Y's ParentSet and remove
X; otherwise do nothing. -/
def applyReductionRule (b : Bdd) (x : Nat) : Bdd :=
  match getNode b x with
  | none => b
  | some xn =>
    match findSimilarNode xn (getNodesOfLevel b xn.level) with
    | none => b
    | some yn => mergeNodeInto b x yn.id xn.parents

/-- Modelled from the spec: `applyEliminationRule()` on internal node X with
equal branches (spec section 4.5): if both branches are the same node C by
identity, replace X by C in each of X's parents and remove X; otherwise do
nothing. -/
def applyEliminationRule (b : Bdd) (x : Nat) : Bdd :=
  match getNode b x with
  | none => b
  | some xn =>
    if xn.level = 0 then b
    else
      match xn.value with
      | some _ => b
      | none =>
        match xn.b0, xn.b1 with
        | some c0, some c1 => if c0 = c1 then mergeNodeInto b x c0 xn.parents else b
        | _, _ => b

/-- One minimize step at a level (spec section 4.7): attempt the reduction rule
on a snapshot of the level's nodes, then the elimination rule on a snapshot of
the remaining nodes. -/
def passLevel (b : Bdd) (l : Nat) : Bdd :=
  let b1 := ((getNodesOfLevel b l).map (fun n => n.id)).foldl applyReductionRule b
  ((getNodesOfLevel b1 l).map (fun n => n.id)).foldl applyEliminationRule b1

/-- One full minimize pass (spec section 4.7): levels N down to 1, leaves
first. -/
def minimizePass (b : Bdd) : Bdd :=
  (((List.range b.depth).map (fun i => i + 1)).reverse).foldl passLevel b

/-- Fueled fixed-point iteration of full passes: stop as soon as a pass leaves
the node count unchanged (every fired rule removes exactly one node, so an
unchanged count means an unchanged diagram). -/
def minimizeRec : Nat → Bdd → Bdd
  | 0, b => b
  | fuel + 1, b =>
    let b2 := minimizePass b
    if b2.nodes.length < b.nodes.length then minimizeRec fuel b2 else b2

/-- Modelled from the spec: the fixed-point driver of `minimize(untilDone=true)`
(spec section 4.7): repeat full passes until one produces no structural change;
each fired rule removes a node, so node count + 1 passes always reach the
fixed point. -/
def minimizeLoop (b : Bdd) : Bdd :=
  minimizeRec (b.nodes.length + 1) b

/-- Modelled from the spec: `minimize(untilDone)` (spec section 4.7): with
`untilDone` false run one pass only. -/
def minimize (b : Bdd) (untilDone : Bool) : Bdd :=
  if untilDone then minimizeLoop b else minimizePass b

/-- Child identifiers of a node. -/
def childIds (n : BNode) : List Nat :=
  n.b0.toList ++ n.b1.toList

/-- One breadth-first expansion step over an arena: a set of identifiers plus
all children of its members. -/
def expandIds (ns : List BNode) (ids : List Nat) : List Nat :=
  (ids ++ ids.flatMap (fun i =>
    match ns.find? (fun n => n.id == i) with
    | some n => childIds n
    | none => [])).dedup

/-- Identifiers reachable from `start` in at most `k` steps. -/
def reachIdsAux (ns : List BNode) (start : Nat) : Nat → List Nat
  | 0 => [start]
  | k + 1 => expandIds ns (reachIdsAux ns start k)

/-- Identifiers reachable from the root; since every edge strictly increases
the level and levels are at most `depth`, `depth` steps suffice. -/
def reachIds (b : Bdd) : List Nat :=
  reachIdsAux b.nodes b.rootId b.depth

/-- The multiset of edges of the arena that enter node `c`, as (parent-id,
label) pairs — what the ParentSet of `c` must mirror (spec section 3,
invariant 3). -/
def edgesIntoList (ns : List BNode) (c : Nat) : List (Nat × Bool) :=
  ns.flatMap (fun m =>
    (if m.b0 == some c then [(m.id, false)] else []) ++
    (if m.b1 == some c then [(m.id, true)] else []))

/-- Count of edges from node `p` on label `l` into node `c`. -/
def countEdges (ns : List BNode) (p : Nat) (l : Bool) (c : Nat) : Nat :=
  ns.countP (fun m => m.id == p && nbranch m l == some c)

/-- Multiset equality of two edge lists: same size and same multiplicity for
every element of the first (which forces equality of the underlying
multisets). -/
def multisetEq (l1 l2 : List (Nat × Bool)) : Bool :=
  l1.length == l2.length && l1.all (fun a => l1.count a == l2.count a)

/-- Branch target check of the validator: with `strict` the child must sit
exactly one level below (spec section 4.6: "no node at level L references a
child at level ≠ L+1"); otherwise only strictly below. -/
def branchOk (strict : Bool) (b : Bdd) (n : BNode) (l : Bool) : Bool :=
  match nbranch n l with
  | none => true
  | some c =>
    match getNode b c with
    | none => false
    | some cn => if strict then cn.level == n.level + 1 else n.level < cn.level

/-- Per-node audit of the validator (spec section 4.6): level 0 is the root
only; branch targets exist at the right level; the leaf level is uniform
(a node carries a value iff it sits at level N); the parent set is exactly the
multiset of incoming edges; the node is reachable from the root. -/
def nodeOk (strict : Bool) (b : Bdd) (n : BNode) : Bool :=
  (n.level != 0 || n.id == b.rootId) &&
  branchOk strict b n false && branchOk strict b n true &&
  (n.value.isSome == (n.level == b.depth)) &&
  (multisetEq n.parents (edgesIntoList b.nodes n.id)) &&
  ((reachIds b).contains n.id)

/-- Full-graph audit shared by the two validator variants: the root exists at
level 0 with no value and an empty parent set, and every node passes
`nodeOk`. -/
def ensureCorrectBddWith (strict : Bool) (b : Bdd) : Bool :=
  (match getNode b b.rootId with
   | some r => r.level == 0 && r.value == none && r.parents.isEmpty
   | none => false) &&
  b.nodes.all (nodeOk strict b)

/-- Modelled from the spec: `ensureCorrectBdd(bdd)` (spec section 4.6,
src/bdd/ensure-correct-bdd.ts is not under src/), with the literal level check
of section 4.6: no node at level L references a child at level ≠ L+1.  `true`
models "raises no error". -/
def ensureCorrectBdd (b : Bdd) : Bool :=
  ensureCorrectBddWith true b

/-- The validator with the level check relaxed to "every edge strictly
increases the level" — the variant compatible with the elimination rule of
spec section 4.5, which makes an edge skip the eliminated node's level. -/
def ensureCorrectBddMonotone (b : Bdd) : Bool :=
  ensureCorrectBddWith false b

/-- Replacement computed by don't-care pruning (spec section 4.9): a leaf whose
value is the marker is removed (`none`); another leaf stays; an internal node
whose branches both prune away is removed; one whose single remaining branch
prunes to C is replaced by C; one whose both branches prune to the same child
is eliminated (replaced by that child); otherwise it survives.  Fueled
recursion over the descending levels. -/
def replFun (b : Bdd) (m : String) : Nat → Nat → Option Nat
  | 0, _ => none
  | fuel + 1, i =>
    match getNode b i with
    | none => none
    | some n =>
      match n.value with
      | some v => if v = m then none else some i
      | none =>
        match n.b0.bind (replFun b m fuel), n.b1.bind (replFun b m fuel) with
        | none, none => none
        | some c, none => some c
        | none, some c => some c
        | some c0, some c1 => if c0 = c1 then some c0 else some i

/-- Rewrite the branches of a surviving node through the pruning replacement;
parent sets are rebuilt afterwards from the surviving edges. -/
def pruneNode (rep : Nat → Option Nat) (n : BNode) : BNode :=
  { n with b0 := n.b0.bind rep, b1 := n.b1.bind rep, parents := [] }

/-- The pruning replacement at full fuel. -/
def pruneRep (b : Bdd) (m : String) : Nat → Option Nat :=
  replFun b m (b.depth + 1)

/-- Stage one of pruning: the surviving nodes (the root and every node that is
its own replacement), their branches rewritten through the replacement. -/
def pruneMid (b : Bdd) (m : String) : List BNode :=
  (b.nodes.filter (fun n =>
    n.id == b.rootId || pruneRep b m n.id == some n.id)).map
    (pruneNode (pruneRep b m))

/-- Stage two of pruning: the identifiers still reachable from the root. -/
def pruneKeepIds (b : Bdd) (m : String) : List Nat :=
  reachIdsAux (pruneMid b m) b.rootId (b.depth + 1)

/-- Stage three of pruning: the surviving reachable nodes. -/
def pruneKept (b : Bdd) (m : String) : List BNode :=
  (pruneMid b m).filter (fun n => (pruneKeepIds b m).contains n.id)

/-- Modelled from the spec: `removeIrrelevantLeafNodes(marker)` (spec section
4.9, the implementation is not under src/): remove every leaf whose value is
the marker, collapse ancestors through the replacement function, drop nodes
that became unreachable (spec section 5: unreachable nodes must be dropped as
part of the mutation), and rebuild the parent sets to mirror the surviving
edges.  The root always stays; if every leaf is the marker the diagram is left
empty below the root and `resolve` fails with "no value" (the reference
behavior chosen in section 4.9). -/
def removeIrrelevantLeafNodes (m : String) (b : Bdd) : Bdd :=
  { depth := b.depth, rootId := b.rootId,
    nodes := (pruneKept b m).map
      (fun n => { n with parents := edgesIntoList (pruneKept b m) n.id }) }

/-- Plain serialized form of a diagram (spec section 4.10, `toJSON(true)`):
root becomes a nested object with the "0" and "1" children at internals and
the value at leaves, each node carrying its identifier; `jmissing` models an
absent branch (JSON null). -/
inductive JTree where
  | jleaf (id : Nat) (v : String)
  | jnode (id : Nat) (t0 t1 : JTree)
  | jmissing
deriving DecidableEq, Repr

/-- Fueled construction of the serialized form from a node. -/
def toJSONNode (b : Bdd) : Nat → Nat → JTree
  | 0, _ => .jmissing
  | fuel + 1, i =>
    match getNode b i with
    | none => .jmissing
    | some n =>
      match n.value with
      | some v => .jleaf n.id v
      | none =>
        .jnode n.id
          (match n.b0 with | some c => toJSONNode b fuel c | none => .jmissing)
          (match n.b1 with | some c => toJSONNode b fuel c | none => .jmissing)

/-- Modelled from the spec: `toJSON(includeIds=true)` (spec section 4.10). -/
def toJSON (b : Bdd) : JTree :=
  toJSONNode b (b.depth + 1) b.rootId

/-- Decimal digit list of a number (fueled). -/
def natStrAux : Nat → Nat → List Char
  | 0, _ => []
  | fuel + 1, n =>
    if n < 10 then [Char.ofNat (48 + n)]
    else natStrAux fuel (n / 10) ++ [Char.ofNat (48 + n % 10)]

/-- Decimal rendering of a node identifier. -/
def natStr (n : Nat) : String :=
  String.mk (natStrAux (n + 1) n)

/-- Model of `JSON.stringify(toJSON(true))`: the flat string form of the
serialized diagram, with values and identifiers rendered verbatim. -/
def jsonStringOf : JTree → String
  | .jleaf i v => "\x7b\"value\":\"" ++ v ++ "\",\"id\":\"" ++ natStr i ++ "\"\x7d"
  | .jnode i t0 t1 =>
    "\x7b\"0\":" ++ jsonStringOf t0 ++ ",\"1\":" ++ jsonStringOf t1 ++
      ",\"id\":\"" ++ natStr i ++ "\"\x7d"
  | .jmissing => "null"

/-- Does the serialized form contain a leaf carrying exactly the value `m`? -/
def jtreeHasValue (m : String) : JTree → Bool
  | .jleaf _ v => v == m
  | .jnode _ t0 t1 => jtreeHasValue m t0 || jtreeHasValue m t1
  | .jmissing => false

/-- One string occurs inside another (the model of `String.includes`). -/
def strContains (hay needle : String) : Bool :=
  decide (needle.toList <:+: hay.toList)

/-- Descend from a node along a list of branch labels. -/
def followFrom (b : Bdd) : List Bool → Nat → Option BNode
  | [], i => getNode b i
  | l :: ls, i =>
    match getNode b i with
    | none => none
    | some n =>
      match nbranch n l with
      | none => none
      | some c => followFrom b ls c

/-- Descend from the root along a list of branch labels (the model of chained
`branches.getBranch` calls in the tests). -/
def followPath (b : Bdd) (ks : List Bool) : Option BNode :=
  followFrom b ks b.rootId

/-- Modelled from the spec: change-event operation kinds (spec section 4.11;
src/states and src/types.ts are not under src/, only
src/logic-generator/types.ts is). -/
inductive Operation where
  | INSERT
  | UPDATE
  | DELETE
deriving DecidableEq, Repr

/-- Modelled from the spec: a document is a partial mapping from field names to
(opaque) field values — enough structure for the classifier predicates of
section 4.11. -/
def Doc : Type :=
  String → Option String

/-- The empty document: the documented default for an absent `doc` or
`previous` (spec section 4.11: undefined inputs map to a documented
default). -/
def emptyDoc : Doc :=
  fun _ => none

/-- Total view of an optional document. -/
def docOrEmpty : Option Doc → Doc
  | some d => d
  | none => emptyDoc

/-- Modelled from the spec: `ChangeEvent \x7b operation, doc, previous?, id \x7d`
(spec section 4.11). -/
structure ChangeEvent where
  operation : Operation
  doc : Option Doc
  previous : Option Doc
  id : String

/-- Modelled from the spec: query parameters compiled from a MongoDB-style
selector, sort, limit and skip (spec section 4.11 and
src/logic-generator/types.ts MongoQuery); the sort order is carried as the
list of sort fields plus the comparator it compiles to. -/
structure QueryParams where
  sortFields : List String
  sortComparator : Doc → Doc → Ordering
  limit : Option Nat
  skip : Option Nat

/-- Modelled from the spec: the input record of every state resolver
(spec section 4.11). -/
structure StateResolveFunctionInput where
  changeEvent : ChangeEvent
  previousResults : List Doc
  queryParams : QueryParams
  keyDocumentMap : Option (List (String × Doc))

/-- Modelled from the spec: `wasInResult` — the changed document's id is
present in `previousResults` (spec section 4.11). -/
def wasInResult (input : StateResolveFunctionInput) : Bool :=
  input.previousResults.any (fun d => d "_id" == some input.changeEvent.id)

/-- Modelled from the spec: `wasSortedAfterLast` — under the current sort, the
previous document sorts strictly after the last element of `previousResults`
(spec section 4.11); false by default when either is absent. -/
def wasSortedAfterLast (input : StateResolveFunctionInput) : Bool :=
  match input.previousResults.getLast?, input.changeEvent.previous with
  | some lastDoc, some prev =>
    input.queryParams.sortComparator prev lastDoc == Ordering.gt
  | _, _ => false

/-- Modelled from the spec: `wasSortedBeforeFirst` — symmetric to
`wasSortedAfterLast` (spec section 4.11). -/
def wasSortedBeforeFirst (input : StateResolveFunctionInput) : Bool :=
  match input.previousResults.head?, input.changeEvent.previous with
  | some firstDoc, some prev =>
    input.queryParams.sortComparator prev firstDoc == Ordering.lt
  | _, _ => false

/-- Modelled from the spec: `sortParamsChanged` — true iff any sort field's
value differs between `doc` and `previous` (the rigorous definition spec
section 9 prescribes for section 4.11); absent documents default to the empty
document. -/
def sortParamsChanged (input : StateResolveFunctionInput) : Bool :=
  input.queryParams.sortFields.any (fun f =>
    docOrEmpty input.changeEvent.doc f != docOrEmpty input.changeEvent.previous f)

/-- Modelled from the spec: the names of the classifier predicates — the closed
list of section 4.11. -/
inductive StateName where
  | wasInResultName
  | wasSortedAfterLastName
  | wasSortedBeforeFirstName
  | sortParamsChangedName
deriving DecidableEq, Repr

/-- Dispatch a state name to its resolver. -/
def resolveState : StateName → StateResolveFunctionInput → Bool
  | .wasInResultName => wasInResult
  | .wasSortedAfterLastName => wasSortedAfterLast
  | .wasSortedBeforeFirstName => wasSortedBeforeFirst
  | .sortParamsChangedName => sortParamsChanged

/-- Modelled from the spec: `orderedStateList` — the stable order of the
classifier predicates (spec section 4.11: the set of predicates is fixed and
its order is stable). -/
def orderedStateList : List StateName :=
  [.wasInResultName, .wasSortedAfterLastName, .wasSortedBeforeFirstName,
   .sortParamsChangedName]

/-- Modelled from the spec: `stateResolveFunctions` — the map from state name
to resolver function, keyed by exactly the states of `orderedStateList`
(spec section 4.11: the builder and the classifier must agree). -/
def stateResolveFunctions : List (StateName × (StateResolveFunctionInput → Bool)) :=
  orderedStateList.map (fun s => (s, resolveState s))

/-- Modelled from the spec: `getStateSet(input)` — the ordered bit vector of
the classifier predicates applied to the input (spec section 4.11). -/
def getStateSet (input : StateResolveFunctionInput) : List Bool :=
  orderedStateList.map (fun s => resolveState s input)

/-- Reachability from node `i` to node `j` along branch edges (the relation the
registry and the level index must match, spec section 3 invariant 6). -/
inductive Reaches (b : Bdd) : Nat → Nat → Prop where
  | refl (i : Nat) : Reaches b i i
  | step {i j k : Nat} {n : BNode} {l : Bool} :
      Reaches b i j → getNode b j = some n → nbranch n l = some k → Reaches b i k

/-- The structural invariants of spec section 3 that every public operation
must maintain: unique identifiers, a root of level 0 without value and without
parents, level 0 reserved to the root, closed branch edges that strictly
increase the level, a uniform leaf level N carrying exactly the valued nodes,
leaves without branches, parent sets mirroring the edge multiset exactly, and
every registered node reachable from the root. -/
structure WF (b : Bdd) : Prop where
  nodup : (b.nodes.map (fun n => n.id)).Nodup
  dpos : 0 < b.depth
  root_mem : ∃ r, getNode b b.rootId = some r ∧ r.level = 0 ∧ r.value = none ∧
    r.parents = []
  level0 : ∀ n ∈ b.nodes, n.level = 0 → n.id = b.rootId
  closed : ∀ n ∈ b.nodes, ∀ l c, nbranch n l = some c →
    ∃ m ∈ b.nodes, m.id = c ∧ n.level < m.level
  leafLevel : ∀ n ∈ b.nodes, (n.value.isSome ↔ n.level = b.depth)
  levelLe : ∀ n ∈ b.nodes, n.level ≤ b.depth
  leafNoBranch : ∀ n ∈ b.nodes, n.value.isSome → n.b0 = none ∧ n.b1 = none
  mirror : ∀ n ∈ b.nodes, ∀ p l, n.parents.count (p, l) = countEdges b.nodes p l n.id
  reach : ∀ n ∈ b.nodes, Reaches b b.rootId n.id

/-- The all-equal truth table the test suite calls `allEqualTable`: every key
maps to the value "a". -/
def allEqualTable : List Bool → String :=
  fun _ => "a"

/-- A depth-1 truth table whose surviving leaf value "ab" contains the pruned
marker "a" as a proper substring. -/
def abTable : List Bool → String :=
  fun k => if k = [true] then "a" else "ab"

/-- A truth table with two distinct values, used to instantiate the universal
claims at a concrete input. -/
def mixedTable : List Bool → String :=
  fun k => if k.getD 0 false then "x" else "y"

/-- A concrete document carrying the single field "age". -/
def ageDoc (v : String) : Doc :=
  fun f => if f = "age" then some v else none

/-- Concrete query parameters sorting by the single field "age". -/
def ageQueryParams : QueryParams :=
  { sortFields := ["age"]
    sortComparator := fun _ _ => Ordering.lt
    limit := none
    skip := none }

/-- A concrete UPDATE input whose doc and previous agree on every sort field. -/
def sameAgeInput : StateResolveFunctionInput :=
  { changeEvent :=
      { operation := .UPDATE
        doc := some (ageDoc "1")
        previous := some (ageDoc "1")
        id := "h1" }
    previousResults := []
    queryParams := ageQueryParams
    keyDocumentMap := none }

/-- A concrete UPDATE input whose doc and previous differ on the sort field. -/
def diffAgeInput : StateResolveFunctionInput :=
  { changeEvent :=
      { operation := .UPDATE
        doc := some (ageDoc "2")
        previous := some (ageDoc "1")
        id := "h1" }
    previousResults := []
    queryParams := ageQueryParams
    keyDocumentMap := none }

/-- The properties every single rule application enjoys: it preserves the
invariants, the depth and the root; it removes exactly one node or does
nothing; and it preserves successful resolution from the root. -/
def GoodStep (op : Bdd → Nat → Bdd) : Prop :=
  ∀ b x, WF b →
    WF (op b x) ∧ (op b x = b ∨ (op b x).nodes.length + 1 = b.nodes.length) ∧
    (op b x).depth = b.depth ∧ (op b x).rootId = b.rootId ∧
    ∀ rs s f v, resolveNode b rs s f b.rootId = some v →
      resolveNode (op b x) rs s f (op b x).rootId = some v

/-- The weaker form shared by composite steps: invariants, depth, root and
resolution preserved, node count non-increasing, and node count unchanged only
when the diagram is unchanged. -/
def ContractStep (op : Bdd → Nat → Bdd) : Prop :=
  ∀ b x, WF b →
    WF (op b x) ∧ (op b x).nodes.length ≤ b.nodes.length ∧
    ((op b x).nodes.length = b.nodes.length → op b x = b) ∧
    (op b x).depth = b.depth ∧ (op b x).rootId = b.rootId ∧
    ∀ rs s f v, resolveNode b rs s f b.rootId = some v →
      resolveNode (op b x) rs s f (op b x).rootId = some v

/-- The intermediate arena of pruning, as a diagram. -/
def midBdd (b : Bdd) (m : String) : Bdd :=
  { depth := b.depth, rootId := b.rootId, nodes := pruneMid b m }

theorem find?_eq_some_self {ns : List BNode}
    (nd : (ns.map (fun n => n.id)).Nodup) {n : BNode} (hn : n ∈ ns) :
    ns.find? (fun m => m.id == n.id) = some n := by
  induction ns with
  | nil => cases hn
  | cons h t ih =>
    rcases List.mem_cons.mp hn with rfl | hmem
    · simp [List.find?]
    · have hne : h.id ≠ n.id := by
        intro e
        have : n.id ∈ t.map (fun m => m.id) := List.mem_map_of_mem _ hmem
        simp only [List.map_cons, List.nodup_cons] at nd
        exact nd.1 (e ▸ this)
      have nd2 : (t.map (fun m => m.id)).Nodup := by
        simp only [List.map_cons, List.nodup_cons] at nd
        exact nd.2
      have hb : (h.id == n.id) = false := by simpa using hne
      simp [List.find?, hb, ih nd2 hmem]

theorem getNode_eq_some {b : Bdd} (nd : (b.nodes.map (fun n => n.id)).Nodup)
    {n : BNode} (hn : n ∈ b.nodes) : getNode b n.id = some n :=
  find?_eq_some_self nd hn

theorem getNode_mem {b : Bdd} {i : Nat} {n : BNode} (h : getNode b i = some n) :
    n ∈ b.nodes ∧ n.id = i := by
  refine ⟨List.mem_of_find?_eq_some h, ?_⟩
  have := List.find?_some h
  simpa using this

theorem getNode_none {b : Bdd} {i : Nat} (h : getNode b i = none) :
    ∀ n ∈ b.nodes, n.id ≠ i := by
  intro n hn
  have := List.find?_eq_none.mp h n hn
  simpa using this

theorem idOf_lt {l v : Nat} (hv : v < 2 ^ l) : idOf l v < 2 ^ (l + 1) - 1 := by
  unfold idOf
  have h1 : (1 : Nat) ≤ 2 ^ l := Nat.one_le_two_pow
  have : 2 ^ (l + 1) = 2 ^ l + 2 ^ l := by rw [pow_succ]; omega
  omega

theorem idOf_ge {l v : Nat} : 2 ^ l - 1 ≤ idOf l v := Nat.le_add_right _ _

theorem pow_sub_one_le {l l2 : Nat} (h : l < l2) : 2 ^ (l + 1) - 1 ≤ 2 ^ l2 - 1 := by
  have := Nat.pow_le_pow_right (by omega : 1 ≤ 2) (by omega : l + 1 ≤ l2)
  omega

theorem idOf_inj {l v l2 v2 : Nat} (hv : v < 2 ^ l) (hv2 : v2 < 2 ^ l2)
    (h : idOf l v = idOf l2 v2) : l = l2 ∧ v = v2 := by
  have hll : l = l2 := by
    by_contra hne
    rcases Nat.lt_or_ge l l2 with hlt | hge
    · have h1 := idOf_lt hv
      have h2 : 2 ^ (l + 1) - 1 ≤ idOf l2 v2 := le_trans (pow_sub_one_le hlt) idOf_ge
      omega
    · have hlt2 : l2 < l := by omega
      have h1 := idOf_lt hv2
      have h2 : 2 ^ (l2 + 1) - 1 ≤ idOf l v := le_trans (pow_sub_one_le hlt2) idOf_ge
      omega
  refine ⟨hll, ?_⟩
  subst hll
  unfold idOf at h
  omega

theorem mem_build_iff {n : Nat} {t : List Bool → String} {x : BNode} :
    x ∈ (createBddFromTruthTable n t).nodes ↔
      ∃ l, l ≤ n ∧ ∃ v, v < 2 ^ l ∧ x = mkNode n t l v := by
  unfold createBddFromTruthTable
  simp only [List.mem_flatMap, List.mem_map, List.mem_range]
  constructor
  · rintro ⟨l, hl, v, hv, rfl⟩
    exact ⟨l, by omega, v, hv, rfl⟩
  · rintro ⟨l, hl, v, hv, rfl⟩
    exact ⟨l, by omega, v, hv, rfl⟩

theorem build_ids (n : Nat) (t : List Bool → String) :
    (createBddFromTruthTable n t).nodes.map (fun x => x.id) =
      List.range (2 ^ (n + 1) - 1) := by
  have key : ∀ m : Nat, ((List.range m).flatMap (fun l =>
      (List.range (2 ^ l)).map (fun v => mkNode n t l v))).map (fun x => x.id) =
      List.range (2 ^ m - 1) := by
    intro m
    induction m with
    | zero => simp
    | succ m ih =>
      rw [List.range_succ, List.flatMap_append, List.map_append, ih]
      have h2 : 2 ^ (m + 1) - 1 = (2 ^ m - 1) + 2 ^ m := by
        have : (1 : Nat) ≤ 2 ^ m := Nat.one_le_two_pow
        have : 2 ^ (m + 1) = 2 ^ m + 2 ^ m := by rw [pow_succ]; omega
        omega
      rw [h2, List.range_add]
      congr 1
      simp only [List.flatMap_singleton, List.map_map]
      rfl
  exact key (n + 1)

theorem build_nodup (n : Nat) (t : List Bool → String) :
    ((createBddFromTruthTable n t).nodes.map (fun x => x.id)).Nodup := by
  rw [build_ids]
  exact List.nodup_range _

theorem build_getNode {n : Nat} {t : List Bool → String} {l v : Nat}
    (hl : l ≤ n) (hv : v < 2 ^ l) :
    getNode (createBddFromTruthTable n t) (idOf l v) = some (mkNode n t l v) := by
  have hmem : mkNode n t l v ∈ (createBddFromTruthTable n t).nodes :=
    mem_build_iff.mpr ⟨l, hl, v, hv, rfl⟩
  have := getNode_eq_some (build_nodup n t) hmem
  simpa [mkNode] using this

theorem keyVal_append_bit (xs : List Bool) (c : Bool) :
    keyVal (xs ++ [c]) = 2 * keyVal xs + (if c then 1 else 0) := by
  unfold keyVal
  rw [List.foldl_append]
  rfl

theorem pathOf_length (l v : Nat) : (pathOf l v).length = l := by
  induction l generalizing v with
  | zero => rfl
  | succ l ih => simp [pathOf, ih]

theorem keyVal_lt {k : List Bool} : keyVal k < 2 ^ k.length := by
  induction k using List.reverseRecOn with
  | nil => simp [keyVal]
  | append_singleton xs c ih =>
    rw [keyVal_append_bit]
    simp only [List.length_append, List.length_singleton]
    have : 2 ^ (xs.length + 1) = 2 * 2 ^ xs.length := by rw [pow_succ]; omega
    rcases c with _ | _ <;> simp <;> omega

theorem keyVal_pathOf {l v : Nat} (hv : v < 2 ^ l) : keyVal (pathOf l v) = v := by
  induction l generalizing v with
  | zero =>
    interval_cases v
    rfl
  | succ l ih =>
    have hv2 : v / 2 < 2 ^ l := by
      have : 2 ^ (l + 1) = 2 * 2 ^ l := by rw [pow_succ]; omega
      omega
    rw [pathOf, keyVal_append_bit, ih hv2]
    rcases Nat.mod_two_eq_zero_or_one v with h | h <;> simp [h] <;> omega

theorem pathOf_keyVal {k : List Bool} : pathOf k.length (keyVal k) = k := by
  induction k using List.reverseRecOn with
  | nil => rfl
  | append_singleton xs c ih =>
    simp only [List.length_append, List.length_singleton]
    rw [pathOf, keyVal_append_bit]
    have hdiv : (2 * keyVal xs + (if c then 1 else 0)) / 2 = keyVal xs := by
      rcases c with _ | _ <;> simp <;> omega
    have hmod : decide ((2 * keyVal xs + (if c then 1 else 0)) % 2 = 1) = c := by
      rcases c with _ | _ <;> simp <;> omega
    rw [hdiv, hmod, ih]

theorem keyVal_inj {k1 k2 : List Bool} (hlen : k1.length = k2.length)
    (h : keyVal k1 = keyVal k2) : k1 = k2 := by
  have e1 : pathOf k1.length (keyVal k1) = k1 := pathOf_keyVal
  have e2 : pathOf k2.length (keyVal k2) = k2 := pathOf_keyVal
  rw [← e1, ← e2, hlen, h]

theorem two_pow_eq_two_mul {l : Nat} (hl : 0 < l) : 2 ^ l = 2 * 2 ^ (l - 1) := by
  conv_lhs => rw [show l = (l - 1) + 1 by omega]
  rw [pow_succ]
  omega

theorem countP_id_nodup {ns : List BNode} (nd : (ns.map (fun n => n.id)).Nodup)
    (p : Nat) (q : BNode → Bool) :
    ns.countP (fun m => m.id == p && q m) =
      (match ns.find? (fun m => m.id == p) with
       | some m => if q m then 1 else 0
       | none => 0) := by
  induction ns with
  | nil => simp
  | cons h t ih =>
    simp only [List.map_cons, List.nodup_cons] at nd
    rw [List.countP_cons]
    by_cases hp : h.id = p
    · have hb : (h.id == p) = true := by simpa using hp
      have ht0 : t.countP (fun m => m.id == p && q m) = 0 := by
        apply List.countP_eq_zero.mpr
        intro m hm
        have : m.id ≠ p := by
          intro e
          exact nd.1 (by rw [hp, ← e]; exact List.mem_map_of_mem _ hm)
        simp [this]
      have hfind : (h :: t).find? (fun m => m.id == p) = some h := by
        simp [List.find?, hb]
      rw [ht0, hfind]
      simp [hb]
    · have hb : (h.id == p) = false := by simpa using hp
      have hfind : (h :: t).find? (fun m => m.id == p) =
          t.find? (fun m => m.id == p) := by
        simp [List.find?, hb]
      rw [hfind, ← ih nd.2]
      simp [hb]

theorem countEdges_eq {ns : List BNode} (nd : (ns.map (fun n => n.id)).Nodup)
    (p : Nat) (l : Bool) (c : Nat) :
    countEdges ns p l c =
      (match ns.find? (fun m => m.id == p) with
       | some m => if nbranch m l == some c then 1 else 0
       | none => 0) :=
  countP_id_nodup nd p _

theorem mkNode_id (n : Nat) (t : List Bool → String) (l v : Nat) :
    (mkNode n t l v).id = idOf l v := rfl

theorem mkNode_level (n : Nat) (t : List Bool → String) (l v : Nat) :
    (mkNode n t l v).level = l := rfl

theorem mkNode_nbranch {n : Nat} {t : List Bool → String} {l v : Nat} (hl : l ≠ n)
    (lb : Bool) :
    nbranch (mkNode n t l v) lb =
      some (idOf (l + 1) (2 * v + (if lb then 1 else 0))) := by
  rcases lb with _ | _ <;> simp [mkNode, nbranch, hl]

theorem mkNode_nbranch_leaf {n : Nat} {t : List Bool → String} {v : Nat} (lb : Bool) :
    nbranch (mkNode n t n v) lb = none := by
  rcases lb with _ | _ <;> simp [mkNode, nbranch]

theorem count_parents_mkNode (n : Nat) (t : List Bool → String) (l v : Nat)
    (p : Nat) (lb : Bool) :
    (mkNode n t l v).parents.count (p, lb) =
      if 0 < l ∧ p = idOf (l - 1) (v / 2) ∧ lb = decide (v % 2 = 1) then 1 else 0 := by
  rcases Nat.eq_zero_or_pos l with rfl | hl
  · simp [mkNode]
  · have hlne : l ≠ 0 := by omega
    simp only [mkNode, hlne, if_false]
    by_cases hp : p = idOf (l - 1) (v / 2) ∧ lb = decide (v % 2 = 1)
    · rcases hp with ⟨rfl, rfl⟩
      simp [hl]
    · rw [List.count_eq_zero.mpr]
      · simp [hl, hp]
      · simp only [List.mem_singleton, Prod.mk.injEq]
        tauto

theorem build_mirror {n : Nat} {t : List Bool → String} {x : BNode}
    (hx : x ∈ (createBddFromTruthTable n t).nodes) (p : Nat) (lb : Bool) :
    x.parents.count (p, lb) =
      countEdges (createBddFromTruthTable n t).nodes p lb x.id := by
  rcases mem_build_iff.mp hx with ⟨l, hl, v, hv, rfl⟩
  rw [countEdges_eq (build_nodup n t), count_parents_mkNode, mkNode_id]
  have hdivb : 0 < l → v / 2 < 2 ^ (l - 1) := by
    intro hlpos
    have := two_pow_eq_two_mul hlpos
    omega
  rcases hfind : (createBddFromTruthTable n t).nodes.find?
      (fun m => m.id == p) with _ | m
  · -- no node carries the id p, so p is not the recorded parent either
    rw [hfind]
    have hcond : ¬ (0 < l ∧ p = idOf (l - 1) (v / 2) ∧ lb = decide (v % 2 = 1)) := by
      rintro ⟨hlpos, rfl, -⟩
      have hpmem : mkNode n t (l - 1) (v / 2) ∈ (createBddFromTruthTable n t).nodes :=
        mem_build_iff.mpr ⟨l - 1, by omega, v / 2, hdivb hlpos, rfl⟩
      exact getNode_none (b := createBddFromTruthTable n t) hfind _ hpmem rfl
    simp [hcond]
  · rw [hfind]
    dsimp only
    rcases getNode_mem (b := createBddFromTruthTable n t) hfind with ⟨hmmem, hmid⟩
    rcases mem_build_iff.mp hmmem with ⟨l2, hl2, v2, hv2, hm⟩
    subst hm
    rw [mkNode_id] at hmid
    by_cases hl2n : l2 = n
    · -- the found node is a leaf: it has no branches, and it cannot be the
      -- recorded parent of x, whose level is below n
      subst hl2n
      rw [mkNode_nbranch_leaf]
      have hcond : ¬ (0 < l ∧ p = idOf (l - 1) (v / 2) ∧ lb = decide (v % 2 = 1)) := by
        rintro ⟨hlpos, rfl, -⟩
        rcases idOf_inj hv2 (hdivb hlpos) hmid with ⟨he, -⟩
        omega
      simp [hcond]
    · have hbound : 2 * v2 + (if lb then 1 else 0) < 2 ^ (l2 + 1) := by
        have : 2 ^ (l2 + 1) = 2 * 2 ^ l2 := by rw [pow_succ]; omega
        rcases lb with _ | _ <;> simp <;> omega
      rw [mkNode_nbranch hl2n lb]
      by_cases heq : idOf (l2 + 1) (2 * v2 + (if lb then 1 else 0)) = idOf l v
      · rcases idOf_inj hbound hv heq with ⟨he1, he2⟩
        have hcond : 0 < l ∧ p = idOf (l - 1) (v / 2) ∧ lb = decide (v % 2 = 1) := by
          refine ⟨by omega, ?_, ?_⟩
          · rw [← hmid]
            have hv2e : v2 = v / 2 := by rcases lb with _ | _ <;> simp at he2 <;> omega
            have hl2e : l2 = l - 1 := by omega
            rw [hv2e, hl2e]
          · rcases lb with _ | _ <;> simp at he2 ⊢ <;> omega
        have hbeq : ((some (idOf (l2 + 1) (2 * v2 + (if lb then 1 else 0))) :
            Option Nat) == some (idOf l v)) = true := by simpa using heq
        rw [if_pos hcond, hbeq]
        simp
      · have hcond : ¬ (0 < l ∧ p = idOf (l - 1) (v / 2) ∧ lb = decide (v % 2 = 1)) := by
          rintro ⟨hlpos, rfl, hlb⟩
          rcases idOf_inj hv2 (hdivb hlpos) hmid with ⟨he1, he2⟩
          apply heq
          subst he1 he2
          have hb2 : (if lb then 1 else 0) = v % 2 := by
            rcases Nat.mod_two_eq_zero_or_one v with h2 | h2 <;>
              simp [h2] at hlb ⊢ <;> simp [hlb]
          unfold idOf
          have hle : l - 1 + 1 = l := by omega
          rw [hle, hb2]
          omega
        have hbeq : ((some (idOf (l2 + 1) (2 * v2 + (if lb then 1 else 0))) :
            Option Nat) == some (idOf l v)) = false := by simpa using heq
        simp [hcond, hbeq]

theorem idOf_zero : idOf 0 0 = 0 := rfl

theorem build_reaches {n : Nat} {t : List Bool → String} {l v : Nat}
    (hl : l ≤ n) (hv : v < 2 ^ l) :
    Reaches (createBddFromTruthTable n t) 0 (idOf l v) := by
  induction l generalizing v with
  | zero =>
    interval_cases v
    rw [idOf_zero]
    exact Reaches.refl 0
  | succ l ih =>
    have hv2 : v / 2 < 2 ^ l := by
      have : 2 ^ (l + 1) = 2 * 2 ^ l := by rw [pow_succ]; omega
      omega
    have hstep : nbranch (mkNode n t l (v / 2)) (decide (v % 2 = 1)) =
        some (idOf (l + 1) v) := by
      rw [mkNode_nbranch (by omega : l ≠ n)]
      congr 1
      unfold idOf
      rcases Nat.mod_two_eq_zero_or_one v with h2 | h2 <;> simp [h2] <;> omega
    exact Reaches.step (ih (by omega) hv2) (build_getNode (by omega) hv2) hstep

theorem build_WF {n : Nat} (t : List Bool → String) (hn : 1 ≤ n) :
    WF (createBddFromTruthTable n t) := by
  refine ⟨build_nodup n t, hn, ?_, ?_, ?_, ?_, ?_, ?_, ?_, ?_⟩
  · refine ⟨mkNode n t 0 0, ?_, rfl, ?_, ?_⟩
    · have := build_getNode (t := t) (by omega : 0 ≤ n) (by norm_num : 0 < 2 ^ 0)
      rw [idOf_zero] at this
      exact this
    · simp [mkNode]
      omega
    · simp [mkNode]
  · intro x hx h0
    rcases mem_build_iff.mp hx with ⟨l, hl, v, hv, rfl⟩
    rw [mkNode_level] at h0
    subst h0
    have : v = 0 := by simpa using hv
    subst this
    rw [mkNode_id, idOf_zero]
    rfl
  · intro x hx lb c hc
    rcases mem_build_iff.mp hx with ⟨l, hl, v, hv, rfl⟩
    by_cases hln : l = n
    · subst hln
      rw [mkNode_nbranch_leaf] at hc
      cases hc
    · rw [mkNode_nbranch hln] at hc
      have hcv : c = idOf (l + 1) (2 * v + (if lb then 1 else 0)) := by
        exact (Option.some.injEq _ _ ▸ hc).symm
      have hbound : 2 * v + (if lb then 1 else 0) < 2 ^ (l + 1) := by
        have : 2 ^ (l + 1) = 2 * 2 ^ l := by rw [pow_succ]; omega
        rcases lb with _ | _ <;> simp <;> omega
      refine ⟨mkNode n t (l + 1) (2 * v + (if lb then 1 else 0)), ?_, ?_, ?_⟩
      · exact mem_build_iff.mpr ⟨l + 1, by omega, _, hbound, rfl⟩
      · rw [mkNode_id, hcv]
      · rw [mkNode_level, mkNode_level]
        omega
  · intro x hx
    rcases mem_build_iff.mp hx with ⟨l, hl, v, hv, rfl⟩
    by_cases hln : l = n <;> simp [mkNode, hln, createBddFromTruthTable]
  · intro x hx
    rcases mem_build_iff.mp hx with ⟨l, hl, v, hv, rfl⟩
    simpa [mkNode, createBddFromTruthTable] using hl
  · intro x hx hv2
    rcases mem_build_iff.mp hx with ⟨l, hl, v, hv, rfl⟩
    by_cases hln : l = n <;> simp [mkNode, hln] at hv2 ⊢
  · intro x hx p lb
    exact build_mirror hx p lb
  · intro x hx
    rcases mem_build_iff.mp hx with ⟨l, hl, v, hv, rfl⟩
    rw [mkNode_id]
    exact build_reaches hl hv

theorem keyVal_take_lt {k : List Bool} {l : Nat} (hl : l ≤ k.length) :
    keyVal (k.take l) < 2 ^ l := by
  have := keyVal_lt (k := k.take l)
  rwa [List.length_take, Nat.min_eq_left hl] at this

theorem keyVal_take_succ {k : List Bool} {l : Nat} (hl : l < k.length) :
    keyVal (k.take (l + 1)) =
      2 * keyVal (k.take l) + (if k.getD l false then 1 else 0) := by
  have : k.take (l + 1) = k.take l ++ [k.getD l false] := by
    rw [List.take_succ]
    congr 1
    have : k[l]? = some (k.getD l false) := by
      rw [List.getD_eq_getElem?_getD, List.getElem?_eq_getElem hl]
      simp [List.getElem?_eq_getElem hl]
    rw [this]
    rfl
  rw [this, keyVal_append_bit]

theorem build_resolveNode {n : Nat} {t : List Bool → String} {rs : ResolverFunctions}
    {k : List Bool} (hk : k.length = n)
    (hrs : ∀ i, i < n → rs i k = k.getD i false) :
    ∀ d l, d = n - l → l ≤ n →
      resolveNode (createBddFromTruthTable n t) rs k (n + 1 - l)
        (idOf l (keyVal (k.take l))) = some (t k) := by
  intro d
  induction d with
  | zero =>
    intro l hd hl
    have hln : l = n := by omega
    subst hln
    have htake : k.take l = k := by
      rw [List.take_of_length_le (by omega)]
    have hfuel : l + 1 - l = 1 := by omega
    rw [hfuel, htake]
    have hget := build_getNode (t := t) (le_refl l) (hk ▸ keyVal_lt (k := k))
    simp only [resolveNode, hget]
    have : (mkNode l t l (keyVal k)).value = some (t (pathOf l (keyVal k))) := by
      simp [mkNode]
    rw [this, ← hk, pathOf_keyVal]
  | succ d ih =>
    intro l hd hl
    have hlt : l < n := by omega
    have hvl : keyVal (k.take l) < 2 ^ l := keyVal_take_lt (by omega)
    have hget := build_getNode (t := t) (by omega : l ≤ n) hvl
    have hfuel : n + 1 - l = (n + 1 - (l + 1)) + 1 := by omega
    rw [hfuel]
    simp only [resolveNode, hget]
    have hval : (mkNode n t l (keyVal (k.take l))).value = none := by
      simp [mkNode]
      omega
    rw [hval]
    have hlev : (mkNode n t l (keyVal (k.take l))).level = l := rfl
    rw [hlev, hrs l hlt]
    have hbr := mkNode_nbranch (t := t) (v := keyVal (k.take l))
      (by omega : l ≠ n) (k.getD l false)
    rw [hbr]
    have hkey : 2 * keyVal (k.take l) + (if k.getD l false then 1 else 0) =
        keyVal (k.take (l + 1)) := (keyVal_take_succ (by omega)).symm
    rw [hkey]
    exact ih (l + 1) (by omega) (by omega)

theorem build_resolve {n : Nat} {t : List Bool → String} {rs : ResolverFunctions}
    {k : List Bool} (hk : k.length = n)
    (hrs : ∀ i, i < n → rs i k = k.getD i false) :
    resolve (createBddFromTruthTable n t) rs k = some (t k) := by
  have := build_resolveNode (t := t) hk hrs n 0 (by omega) (by omega)
  rw [show k.take 0 = [] from rfl] at this
  rw [show keyVal [] = 0 from rfl, idOf_zero] at this
  rw [show n + 1 - 0 = n + 1 from rfl] at this
  exact this

theorem mem_id_unique {ns : List BNode} (nd : (ns.map (fun n => n.id)).Nodup)
    {m1 m2 : BNode} (h1 : m1 ∈ ns) (h2 : m2 ∈ ns) (h : m1.id = m2.id) :
    m1 = m2 := by
  induction ns with
  | nil => cases h1
  | cons hd tl ih =>
    simp only [List.map_cons, List.nodup_cons] at nd
    rcases List.mem_cons.mp h1 with rfl | hm1
    · rcases List.mem_cons.mp h2 with rfl | hm2
      · rfl
      · exact absurd (h ▸ List.mem_map_of_mem _ hm2) nd.1
    · rcases List.mem_cons.mp h2 with rfl | hm2
      · exact absurd (h ▸ List.mem_map_of_mem _ hm1) nd.1
      · exact ih nd.2 hm1 hm2

theorem no_self_edge {b : Bdd} (wf : WF b) {m : BNode} (hm : m ∈ b.nodes)
    {lb : Bool} {c : Nat} (hc : nbranch m lb = some c) : m.id ≠ c := by
  intro e
  rcases wf.closed m hm lb c hc with ⟨m2, hm2, hid, hlev⟩
  have : m = m2 := mem_id_unique wf.nodup hm hm2 (by rw [e, hid])
  rw [this] at hlev
  omega

theorem redir_none (x y : Nat) : redir x y none = none := rfl

theorem redir_some (x y c : Nat) :
    redir x y (some c) = some (if c = x then y else c) := rfl

theorem mergeNode_id (x y : Nat) (xps : List (Nat × Bool)) (n : BNode) :
    (mergeNode x y xps n).id = n.id := rfl

theorem mergeNode_level (x y : Nat) (xps : List (Nat × Bool)) (n : BNode) :
    (mergeNode x y xps n).level = n.level := rfl

theorem mergeNode_value (x y : Nat) (xps : List (Nat × Bool)) (n : BNode) :
    (mergeNode x y xps n).value = n.value := rfl

theorem mergeNode_nbranch (x y : Nat) (xps : List (Nat × Bool)) (n : BNode)
    (lb : Bool) :
    nbranch (mergeNode x y xps n) lb = redir x y (nbranch n lb) := by
  rcases lb with _ | _ <;> rfl

theorem mergeNode_parents (x y : Nat) (xps : List (Nat × Bool)) (n : BNode) :
    (mergeNode x y xps n).parents =
      n.parents.filter (fun pl => pl.1 != x) ++ (if n.id = y then xps else []) := rfl

theorem find?_filter_of_imp {α} (l : List α) (p q : α → Bool)
    (h : ∀ a, p a → q a) : (l.filter q).find? p = l.find? p := by
  induction l with
  | nil => rfl
  | cons hd tl ih =>
    by_cases hq : q hd
    · rw [List.filter_cons_of_pos hq]
      by_cases hp : p hd
      · rw [List.find?_cons_of_pos _ hp, List.find?_cons_of_pos _ hp]
      · rw [List.find?_cons_of_neg _ (by simpa using hp),
          List.find?_cons_of_neg _ (by simpa using hp), ih]
    · have hp : ¬ p hd := fun hp => hq (h hd hp)
      rw [List.filter_cons_of_neg (by simpa using hq),
        List.find?_cons_of_neg _ (by simpa using hp), ih]

theorem find?_map_id_pred (f : BNode → BNode) (hf : ∀ n, (f n).id = n.id)
    (l : List BNode) (i : Nat) :
    (l.map f).find? (fun n => n.id == i) =
      (l.find? (fun n => n.id == i)).map f := by
  induction l with
  | nil => rfl
  | cons hd tl ih =>
    by_cases hp : hd.id = i
    · have h1 : ((f hd).id == i) = true := by simp [hf, hp]
      have h2 : (hd.id == i) = true := by simp [hp]
      rw [List.map_cons]
      simp [List.find?, h1, h2]
    · have h1 : ((f hd).id == i) = false := by simp [hf, hp]
      have h2 : (hd.id == i) = false := by simp [hp]
      rw [List.map_cons]
      simp [List.find?, h1, h2, ih]

theorem mergeNodeInto_depth (b : Bdd) (x y : Nat) (xps : List (Nat × Bool)) :
    (mergeNodeInto b x y xps).depth = b.depth := rfl

theorem mergeNodeInto_rootId (b : Bdd) (x y : Nat) (xps : List (Nat × Bool)) :
    (mergeNodeInto b x y xps).rootId = b.rootId := rfl

theorem getNode_mergeNodeInto_self (b : Bdd) (x y : Nat) (xps : List (Nat × Bool)) :
    getNode (mergeNodeInto b x y xps) x = none := by
  unfold getNode mergeNodeInto
  simp only
  rw [find?_map_id_pred (mergeNode x y xps) (fun n => rfl)]
  rw [show (b.nodes.filter (fun n => n.id != x)).find? (fun n => n.id == x) = none
    from ?_]
  · rfl
  · apply List.find?_eq_none.mpr
    intro n hn
    have := List.of_mem_filter hn
    simpa using this

theorem getNode_mergeNodeInto {b : Bdd} {x : Nat} (y : Nat) (xps : List (Nat × Bool))
    {i : Nat} (hix : i ≠ x) :
    getNode (mergeNodeInto b x y xps) i =
      (getNode b i).map (mergeNode x y xps) := by
  unfold getNode mergeNodeInto
  simp only
  rw [find?_map_id_pred (mergeNode x y xps) (fun n => rfl)]
  rw [find?_filter_of_imp]
  intro a ha
  have : a.id = i := by simpa using ha
  simp [this, hix]

theorem mem_mergeNodeInto {b : Bdd} {x y : Nat} {xps : List (Nat × Bool)} {m : BNode} :
    m ∈ (mergeNodeInto b x y xps).nodes ↔
      ∃ c ∈ b.nodes, c.id ≠ x ∧ m = mergeNode x y xps c := by
  unfold mergeNodeInto
  simp only [List.mem_map, List.mem_filter]
  constructor
  · rintro ⟨c, ⟨hc, hcx⟩, rfl⟩
    exact ⟨c, hc, by simpa using hcx, rfl⟩
  · rintro ⟨c, hc, hcx, rfl⟩
    exact ⟨c, ⟨hc, by simpa using hcx⟩, rfl⟩

theorem mergeNodeInto_nodup {b : Bdd} (nd : (b.nodes.map (fun n => n.id)).Nodup)
    (x y : Nat) (xps : List (Nat × Bool)) :
    ((mergeNodeInto b x y xps).nodes.map (fun n => n.id)).Nodup := by
  unfold mergeNodeInto
  simp only [List.map_map]
  have heq : ((b.nodes.filter (fun n => n.id != x)).map
      ((fun n => n.id) ∘ mergeNode x y xps)) =
      (b.nodes.filter (fun n => n.id != x)).map (fun n => n.id) := by
    apply List.map_congr_left
    intro a ha
    rfl
  rw [heq]
  exact List.Nodup.sublist ((List.filter_sublist _).map _) nd

theorem length_mergeNodeInto {b : Bdd} (nd : (b.nodes.map (fun n => n.id)).Nodup)
    {xn : BNode} (hx : xn ∈ b.nodes) (y : Nat) (xps : List (Nat × Bool)) :
    (mergeNodeInto b xn.id y xps).nodes.length + 1 = b.nodes.length := by
  unfold mergeNodeInto
  simp only [List.length_map]
  have hsplit := List.length_eq_countP_add_countP (fun n : BNode => n.id == xn.id)
    (l := b.nodes)
  rw [show (List.filter (fun n => n.id != xn.id) b.nodes).length =
    b.nodes.countP (fun n => n.id != xn.id) from
      (List.countP_eq_length_filter _ _).symm]
  have hone : b.nodes.countP (fun n => n.id == xn.id) = 1 := by
    have h := countP_id_nodup nd xn.id (fun _ => true)
    rw [find?_eq_some_self nd hx] at h
    simpa using h
  have hcompl : b.nodes.countP (fun n => n.id != xn.id) =
      b.nodes.countP (fun a => decide ¬((a.id == xn.id) = true)) := by
    apply List.countP_congr
    intro a ha
    by_cases h : a.id = xn.id <;> simp [h]
  rw [hcompl]
  omega

theorem countP_or_disjoint {α} (l : List α) (p q : α → Bool)
    (h : ∀ a ∈ l, ¬(p a = true ∧ q a = true)) :
    l.countP (fun a => p a || q a) = l.countP p + l.countP q := by
  induction l with
  | nil => rfl
  | cons hd tl ih =>
    rw [List.countP_cons, List.countP_cons, List.countP_cons,
      ih (fun a ha => h a (List.mem_cons_of_mem _ ha))]
    have := h hd (List.mem_cons_self hd tl)
    by_cases hp : p hd <;> by_cases hq : q hd <;> simp [hp, hq] at this ⊢ <;> omega

theorem count_filter_fst (ps : List (Nat × Bool)) (x p : Nat) (lb : Bool) :
    (ps.filter (fun pl => pl.1 != x)).count (p, lb) =
      if p = x then 0 else ps.count (p, lb) := by
  rcases eq_or_ne p x with rfl | hpx
  · rw [if_pos rfl, List.count_eq_zero]
    intro hmem
    have := List.of_mem_filter hmem
    simp at this
  · rw [if_neg hpx]
    apply List.count_filter
    simp [hpx]

theorem countEdges_mergeNodeInto (b : Bdd) (x y : Nat) (xps : List (Nat × Bool))
    (p : Nat) (lb : Bool) (c : Nat) :
    countEdges (mergeNodeInto b x y xps).nodes p lb c =
      b.nodes.countP (fun m =>
        (m.id == p && redir x y (nbranch m lb) == some c) && m.id != x) := by
  unfold countEdges mergeNodeInto
  simp only
  rw [List.countP_map, List.countP_filter]
  apply List.countP_congr
  intro a ha
  simp only [Function.comp, mergeNode_nbranch]
  rfl

theorem count_parents_self_zero {b : Bdd} (wf : WF b) {xn : BNode}
    (hx : xn ∈ b.nodes) (lb : Bool) :
    xn.parents.count (xn.id, lb) = 0 := by
  rw [wf.mirror xn hx, countEdges_eq wf.nodup, find?_eq_some_self wf.nodup hx]
  rcases hbr : nbranch xn lb with _ | d
  · simp [hbr]
  · have := no_self_edge wf hx hbr
    simp [hbr]
    omega

theorem mergeNodeInto_mirror {b : Bdd} (wf : WF b) {xn yn : BNode}
    (hx : xn ∈ b.nodes) (hy : yn ∈ b.nodes) (hne : yn.id ≠ xn.id) {c : BNode}
    (hc : c ∈ b.nodes) (hcx : c.id ≠ xn.id) (p : Nat) (lb : Bool) :
    (mergeNode xn.id yn.id xn.parents c).parents.count (p, lb) =
      countEdges (mergeNodeInto b xn.id yn.id xn.parents).nodes p lb
        (mergeNode xn.id yn.id xn.parents c).id := by
  rw [mergeNode_id, countEdges_mergeNodeInto, mergeNode_parents,
    List.count_append, count_filter_fst]
  by_cases hpx : p = xn.id
  · -- edges from the removed node are gone on both sides
    subst hpx
    rw [if_pos rfl]
    have hz : (if c.id = yn.id then xn.parents else []).count (xn.id, lb) = 0 := by
      by_cases hcy : c.id = yn.id
      · rw [if_pos hcy]
        exact count_parents_self_zero wf hx lb
      · rw [if_neg hcy]
        rfl
    rw [hz, List.countP_eq_zero.mpr]
    intro m hm
    by_cases hmx : m.id = xn.id <;> simp [hmx]
  · rw [if_neg hpx]
    by_cases hcy : c.id = yn.id
    · -- the merge target absorbs the removed node's incoming edges
      rw [if_pos hcy]
      have hdisj : ∀ m ∈ b.nodes,
          ¬((m.id == p && nbranch m lb == some c.id) = true ∧
            (m.id == p && nbranch m lb == some xn.id) = true) := by
        rintro m hm ⟨h1, h2⟩
        simp only [Bool.and_eq_true, beq_iff_eq] at h1 h2
        rw [h1.2] at h2
        exact hcx (by simpa using h2.2)
      have hcongr : b.nodes.countP (fun m =>
          (m.id == p && redir xn.id yn.id (nbranch m lb) == some c.id) &&
            m.id != xn.id) =
          b.nodes.countP (fun m =>
            (m.id == p && nbranch m lb == some c.id) ||
            (m.id == p && nbranch m lb == some xn.id)) := by
        apply List.countP_congr
        intro m hm
        by_cases hmp : m.id = p
        · have hmx : (m.id != xn.id) = true := by simp [hmp, hpx]
          rcases hbr : nbranch m lb with _ | d
          · simp [hmp, hmx, redir_none, hbr]
          · rw [redir_some]
            by_cases hdx : d = xn.id
            · subst hdx
              have h1 : (yn.id == c.id) = true := by simp [hcy]
              simp [hmp, hmx, hbr, h1, hcx, hcy, hpx]
            · simp [hmp, hmx, hbr, hdx, hpx]
        · simp [hmp]
      rw [hcongr, countP_or_disjoint _ _ _ hdisj]
      have e1 : b.nodes.countP (fun m => m.id == p && nbranch m lb == some c.id) =
          countEdges b.nodes p lb c.id := rfl
      have e2 : b.nodes.countP (fun m => m.id == p && nbranch m lb == some xn.id) =
          countEdges b.nodes p lb xn.id := rfl
      rw [e1, e2, wf.mirror c hc p lb, wf.mirror xn hx p lb]
    · -- an untouched node keeps exactly its original incoming edges
      rw [if_neg hcy, List.count_nil, Nat.add_zero]
      have hcongr : b.nodes.countP (fun m =>
          (m.id == p && redir xn.id yn.id (nbranch m lb) == some c.id) &&
            m.id != xn.id) =
          b.nodes.countP (fun m => m.id == p && nbranch m lb == some c.id) := by
        apply List.countP_congr
        intro m hm
        by_cases hmp : m.id = p
        · have hmx : (m.id != xn.id) = true := by simp [hmp, hpx]
          rcases hbr : nbranch m lb with _ | d
          · simp [hmp, hmx, redir_none, hbr]
          · rw [redir_some]
            by_cases hdx : d = xn.id
            · subst hdx
              have h1 : (yn.id == c.id) = false := by
                simp
                intro e
                exact hcy e.symm
              simp [hmp, hmx, hbr, h1, hcx, Ne.symm hcx, hpx]
            · simp [hmp, hmx, hbr, hdx, hpx]
        · simp [hmp]
      rw [hcongr]
      exact wf.mirror c hc p lb

theorem root_ne_of_pos_level {b : Bdd} (wf : WF b) {zn : BNode} (hz : zn ∈ b.nodes)
    (hzl : 0 < zn.level) : b.rootId ≠ zn.id := by
  rcases wf.root_mem with ⟨r, hr, hrl, -, -⟩
  intro e
  have : getNode b zn.id = some zn := getNode_eq_some wf.nodup hz
  rw [← e, hr] at this
  have : r = zn := by simpa using this
  rw [this] at hrl
  omega

theorem getNode_self {b : Bdd} (wf : WF b) {zn : BNode} (hz : zn ∈ b.nodes) :
    getNode b zn.id = some zn := getNode_eq_some wf.nodup hz

theorem child_ne_self {b : Bdd} (wf : WF b) {m : BNode} (hm : m ∈ b.nodes)
    {lb : Bool} {c : Nat} (hc : nbranch m lb = some c) {zn : BNode}
    (hz : zn ∈ b.nodes) (hlev : zn.level ≤ m.level) : c ≠ zn.id := by
  intro e
  rcases wf.closed m hm lb c hc with ⟨m2, hm2, hid, hl⟩
  have : m2 = zn := mem_id_unique wf.nodup hm2 hz (by rw [hid, e])
  rw [this] at hl
  omega

theorem mergeNodeInto_reaches {b : Bdd} (wf : WF b) {xn yn : BNode}
    (hx : xn ∈ b.nodes) (hy : yn ∈ b.nodes) (hne : yn.id ≠ xn.id)
    (hxl : 0 < xn.level) (hlev : xn.level ≤ yn.level)
    (hchild : ∀ lb c, nbranch xn lb = some c → c = yn.id ∨ nbranch yn lb = some c)
    {j : Nat} (hr : Reaches b b.rootId j) :
    Reaches (mergeNodeInto b xn.id yn.id xn.parents) b.rootId
      (if j = xn.id then yn.id else j) := by
  have hrootx : b.rootId ≠ xn.id := root_ne_of_pos_level wf hx hxl
  induction hr with
  | refl =>
    rw [if_neg hrootx]
    exact Reaches.refl _
  | @step j k nj lb hr2 hget hbr ih =>
    by_cases hjx : j = xn.id
    · subst hjx
      have hnj : nj = xn := by
        have h2 := getNode_self wf hx
        rw [hget] at h2
        exact Option.some.inj h2

      subst hnj
      rcases hchild lb k hbr with rfl | hyk
      · rw [if_pos rfl] at ih
        rw [if_neg (by omega : ¬ yn.id = nj.id)]
        exact ih
      · have hkx : k ≠ nj.id := child_ne_self wf hx hbr hx (le_refl _)
        rw [if_neg hkx]
        rw [if_pos rfl] at ih
        refine Reaches.step ih ?_
          (?_ : nbranch (mergeNode nj.id yn.id nj.parents yn) lb = some k)
        · rw [getNode_mergeNodeInto _ _ (by omega : yn.id ≠ nj.id),
            getNode_self wf hy]
          rfl
        · rw [mergeNode_nbranch, hyk, redir_some, if_neg hkx]
    · rw [if_neg hjx] at ih
      have hb2 : nbranch (mergeNode xn.id yn.id xn.parents nj) lb =
          some (if k = xn.id then yn.id else k) := by
        rw [mergeNode_nbranch, hbr, redir_some]
      refine Reaches.step ih ?_ hb2
      rw [getNode_mergeNodeInto _ _ hjx, hget]
      rfl

theorem mergeNodeInto_WF {b : Bdd} (wf : WF b) {xn yn : BNode}
    (hx : xn ∈ b.nodes) (hy : yn ∈ b.nodes) (hne : yn.id ≠ xn.id)
    (hxl : 0 < xn.level) (hyl : 0 < yn.level) (hlev : xn.level ≤ yn.level)
    (hchild : ∀ lb c, nbranch xn lb = some c → c = yn.id ∨ nbranch yn lb = some c) :
    WF (mergeNodeInto b xn.id yn.id xn.parents) := by
  have hrootx : b.rootId ≠ xn.id := root_ne_of_pos_level wf hx hxl
  have hrooty : b.rootId ≠ yn.id := root_ne_of_pos_level wf hy hyl
  rcases wf.root_mem with ⟨r, hroot, hrl, hrv, hrp⟩
  refine ⟨mergeNodeInto_nodup wf.nodup _ _ _, wf.dpos, ?_, ?_, ?_, ?_, ?_, ?_, ?_, ?_⟩
  · refine ⟨mergeNode xn.id yn.id xn.parents r, ?_, hrl, hrv, ?_⟩
    · rw [mergeNodeInto_rootId, getNode_mergeNodeInto _ _ hrootx, hroot]
      rfl
    · rw [mergeNode_parents, hrp]
      have hry : r.id ≠ yn.id := by
        have : r.id = b.rootId := by
          rcases getNode_mem hroot with ⟨-, h⟩
          exact h
        rw [this]
        exact hrooty
      simp [hry]
  · intro n hn h0
    rcases mem_mergeNodeInto.mp hn with ⟨c, hc, hcx, rfl⟩
    rw [mergeNode_level] at h0
    rw [mergeNode_id, mergeNodeInto_rootId]
    exact wf.level0 c hc h0
  · intro n hn lb d hd
    rcases mem_mergeNodeInto.mp hn with ⟨c, hc, hcx, rfl⟩
    rw [mergeNode_nbranch] at hd
    rcases hbr : nbranch c lb with _ | d0
    · rw [hbr] at hd
      cases hd
    · rw [hbr, redir_some] at hd
      have hd2 : d = if d0 = xn.id then yn.id else d0 := by simpa using hd.symm
      rcases wf.closed c hc lb d0 hbr with ⟨m, hm, hmid, hml⟩
      by_cases hd0x : d0 = xn.id
      · refine ⟨mergeNode xn.id yn.id xn.parents yn, ?_, ?_, ?_⟩
        · exact mem_mergeNodeInto.mpr ⟨yn, hy, by omega, rfl⟩
        · rw [mergeNode_id, hd2, if_pos hd0x]
        · rw [mergeNode_level, mergeNode_level]
          have : m = xn := mem_id_unique wf.nodup hm hx (by rw [hmid, hd0x])
          rw [this] at hml
          omega
      · refine ⟨mergeNode xn.id yn.id xn.parents m, ?_, ?_, ?_⟩
        · refine mem_mergeNodeInto.mpr ⟨m, hm, ?_, rfl⟩
          rw [hmid]
          exact hd0x
        · rw [mergeNode_id, hd2, if_neg hd0x, hmid]
        · rw [mergeNode_level, mergeNode_level]
          exact hml
  · intro n hn
    rcases mem_mergeNodeInto.mp hn with ⟨c, hc, hcx, rfl⟩
    rw [show (mergeNodeInto b xn.id yn.id xn.parents).depth = b.depth from rfl]
    exact wf.leafLevel c hc
  · intro n hn
    rcases mem_mergeNodeInto.mp hn with ⟨c, hc, hcx, rfl⟩
    rw [show (mergeNodeInto b xn.id yn.id xn.parents).depth = b.depth from rfl]
    exact wf.levelLe c hc
  · intro n hn hv
    rcases mem_mergeNodeInto.mp hn with ⟨c, hc, hcx, rfl⟩
    rw [mergeNode_value] at hv
    rcases wf.leafNoBranch c hc hv with ⟨h0, h1⟩
    constructor
    · show redir xn.id yn.id c.b0 = none
      rw [h0]
      rfl
    · show redir xn.id yn.id c.b1 = none
      rw [h1]
      rfl
  · intro n hn p lb
    rcases mem_mergeNodeInto.mp hn with ⟨c, hc, hcx, rfl⟩
    exact mergeNodeInto_mirror wf hx hy hne hc hcx p lb
  · intro n hn
    rcases mem_mergeNodeInto.mp hn with ⟨c, hc, hcx, rfl⟩
    have := mergeNodeInto_reaches wf hx hy hne hxl hlev hchild (wf.reach c hc)
    rw [if_neg hcx] at this
    rw [mergeNode_id, mergeNodeInto_rootId]
    exact this

theorem resolveNode_zero (b : Bdd) (rs : ResolverFunctions) (s : List Bool)
    (i : Nat) : resolveNode b rs s 0 i = none := rfl

theorem resolveNode_nofind {b : Bdd} {rs : ResolverFunctions} {s : List Bool}
    {f i : Nat} (hget : getNode b i = none) :
    resolveNode b rs s (f + 1) i = none := by
  rw [resolveNode, hget]

theorem resolveNode_leaf {b : Bdd} {rs : ResolverFunctions} {s : List Bool}
    {f i : Nat} {n : BNode} {v2 : String} (hget : getNode b i = some n)
    (hv : n.value = some v2) :
    resolveNode b rs s (f + 1) i = some v2 := by
  rw [resolveNode, hget]
  dsimp only
  rw [hv]

theorem resolveNode_internal {b : Bdd} {rs : ResolverFunctions} {s : List Bool}
    {f i : Nat} {n : BNode} (hget : getNode b i = some n) (hv : n.value = none)
    {c : Nat} (hbr : nbranch n (rs n.level s) = some c) :
    resolveNode b rs s (f + 1) i = resolveNode b rs s f c := by
  rw [resolveNode, hget]
  dsimp only
  rw [hv, hbr]

theorem resolveNode_stuck {b : Bdd} {rs : ResolverFunctions} {s : List Bool}
    {f i : Nat} {n : BNode} (hget : getNode b i = some n) (hv : n.value = none)
    (hbr : nbranch n (rs n.level s) = none) :
    resolveNode b rs s (f + 1) i = none := by
  rw [resolveNode, hget]
  dsimp only
  rw [hv, hbr]

theorem resolveNode_mono {b : Bdd} {rs : ResolverFunctions} {s : List Bool} :
    ∀ {f : Nat} {i : Nat} {v : String}, resolveNode b rs s f i = some v →
      resolveNode b rs s (f + 1) i = some v := by
  intro f
  induction f with
  | zero => intro i v h; cases h
  | succ f ih =>
    intro i v h
    rcases hget : getNode b i with _ | n
    · rw [resolveNode_nofind hget] at h; cases h
    · rcases hv : n.value with _ | v2
      · rcases hbr : nbranch n (rs n.level s) with _ | c
        · rw [resolveNode_stuck hget hv hbr] at h; cases h
        · rw [resolveNode_internal hget hv hbr] at h
          rw [resolveNode_internal hget hv hbr]
          exact ih h
      · rw [resolveNode_leaf hget hv] at h
        rw [resolveNode_leaf hget hv]
        exact h

theorem isSimilarNode_true_iff (x y : BNode) :
    isSimilarNode x y = true ↔
      (x.level ≠ 0 ∧ y.level ≠ 0 ∧ x.level = y.level ∧
       ((∃ v, x.value = some v ∧ y.value = some v) ∨
        (x.value = none ∧ y.value = none ∧ x.b0 = y.b0 ∧ x.b1 = y.b1 ∧
         x.b0.isSome ∧ x.b1.isSome))) := by
  unfold isSimilarNode
  rcases hx : x.value with _ | vx <;> rcases hy : y.value with _ | vy <;>
    simp [hx, hy] <;> tauto

theorem similar_nbranch {x y : BNode} (h : isSimilarNode x y = true)
    (hxv : x.value = none) (lb : Bool) : nbranch x lb = nbranch y lb := by
  rcases (isSimilarNode_true_iff x y).mp h with ⟨-, -, -, hd⟩
  rcases hd with ⟨v, hv, -⟩ | ⟨-, -, h0, h1, -, -⟩
  · rw [hxv] at hv; cases hv
  · rcases lb with _ | _
    · exact h0
    · exact h1

theorem getNode_mergeNodeInto_some {b : Bdd} {x : Nat} (y : Nat)
    (xps : List (Nat × Bool)) {i : Nat} (hix : i ≠ x) {n : BNode}
    (hget : getNode b i = some n) :
    getNode (mergeNodeInto b x y xps) i = some (mergeNode x y xps n) := by
  rw [getNode_mergeNodeInto y xps hix, hget]
  rfl

theorem resolveNode_merge_similar {b : Bdd} (wf : WF b) {xn yn : BNode}
    (hx : xn ∈ b.nodes) (hy : yn ∈ b.nodes) (hne : yn.id ≠ xn.id)
    (hsim : isSimilarNode xn yn = true) (rs : ResolverFunctions) (s : List Bool) :
    ∀ f i v, i ≠ xn.id → resolveNode b rs s f i = some v →
      resolveNode (mergeNodeInto b xn.id yn.id xn.parents) rs s f i = some v := by
  intro f
  induction f using Nat.strong_induction_on with
  | _ f ih =>
  intro i v hix h
  rcases f with _ | f
  · cases h
  rcases hget : getNode b i with _ | n
  · rw [resolveNode_nofind hget] at h; cases h
  have hget2 := getNode_mergeNodeInto_some yn.id xn.parents hix hget
  rcases hv : n.value with _ | v2
  · rcases hbr : nbranch n (rs n.level s) with _ | c
    · rw [resolveNode_stuck hget hv hbr] at h; cases h
    rw [resolveNode_internal hget hv hbr] at h
    by_cases hcx : c = xn.id
    · subst hcx
      -- the run continued at the removed node: replay it at the merge target
      rcases f with _ | f
      · cases h
      have hgetx : getNode b xn.id = some xn := getNode_self wf hx
      rcases hxv : xn.value with _ | vx
      · rcases hbr2 : nbranch xn (rs xn.level s) with _ | c2
        · rw [resolveNode_stuck hgetx hxv hbr2] at h; cases h
        rw [resolveNode_internal hgetx hxv hbr2] at h
        have hc2x : c2 ≠ xn.id := child_ne_self wf hx hbr2 hx (le_refl _)
        have hrec := ih f (by omega) c2 v hc2x h
        have hyv : yn.value = none := by
          rcases (isSimilarNode_true_iff xn yn).mp hsim with ⟨-, -, -, hd⟩
          rcases hd with ⟨w, hw, -⟩ | ⟨-, h2, -⟩
          · rw [hxv] at hw; cases hw
          · exact h2
        have hgety2 := getNode_mergeNodeInto_some yn.id xn.parents
          (show yn.id ≠ xn.id from hne) (getNode_self wf hy)
        have hlev : yn.level = xn.level :=
          ((isSimilarNode_true_iff xn yn).mp hsim).2.2.1.symm
        have hbry : nbranch (mergeNode xn.id yn.id xn.parents yn)
            (rs (mergeNode xn.id yn.id xn.parents yn).level s) = some c2 := by
          rw [show (mergeNode xn.id yn.id xn.parents yn).level = yn.level from rfl,
            hlev, mergeNode_nbranch, ← similar_nbranch hsim hxv (rs xn.level s),
            hbr2, redir_some, if_neg hc2x]
        have hb2 : nbranch (mergeNode xn.id yn.id xn.parents n)
            (rs (mergeNode xn.id yn.id xn.parents n).level s) = some yn.id := by
          rw [show (mergeNode xn.id yn.id xn.parents n).level = n.level from rfl,
            mergeNode_nbranch, hbr, redir_some, if_pos rfl]
        rw [resolveNode_internal hget2 (by
          rw [show (mergeNode xn.id yn.id xn.parents n).value = n.value from rfl,
            hv]) hb2]
        rw [resolveNode_internal hgety2 (by
          rw [show (mergeNode xn.id yn.id xn.parents yn).value = yn.value from rfl,
            hyv]) hbry]
        exact hrec
      · -- the removed node is a leaf; the merge target carries the same value
        have hval : v = vx := by
          rw [resolveNode_leaf hgetx hxv] at h
          simpa using h.symm
        have hyv : yn.value = some vx := by
          rcases (isSimilarNode_true_iff xn yn).mp hsim with ⟨-, -, -, hd⟩
          rcases hd with ⟨w, hw, hw2⟩ | ⟨h2, -⟩
          · rw [hxv] at hw
            rw [hw2, show w = vx from by simpa using hw.symm]
          · rw [hxv] at h2; cases h2
        have hgety2 := getNode_mergeNodeInto_some yn.id xn.parents
          (show yn.id ≠ xn.id from hne) (getNode_self wf hy)
        have hb2 : nbranch (mergeNode xn.id yn.id xn.parents n)
            (rs (mergeNode xn.id yn.id xn.parents n).level s) = some yn.id := by
          rw [show (mergeNode xn.id yn.id xn.parents n).level = n.level from rfl,
            mergeNode_nbranch, hbr, redir_some, if_pos rfl]
        rw [resolveNode_internal hget2 (by
          rw [show (mergeNode xn.id yn.id xn.parents n).value = n.value from rfl,
            hv]) hb2]
        rcases f with _ | f
        · -- one unfolding step remains: the merge target answers at once
          rw [resolveNode_leaf hgety2 (by
            rw [show (mergeNode xn.id yn.id xn.parents yn).value = yn.value
              from rfl, hyv])]
          rw [hval]
        · rw [resolveNode_leaf hgety2 (by
            rw [show (mergeNode xn.id yn.id xn.parents yn).value = yn.value
              from rfl, hyv])]
          rw [hval]
    · have hb2 : nbranch (mergeNode xn.id yn.id xn.parents n)
          (rs (mergeNode xn.id yn.id xn.parents n).level s) = some c := by
        rw [show (mergeNode xn.id yn.id xn.parents n).level = n.level from rfl,
          mergeNode_nbranch, hbr, redir_some, if_neg hcx]
      rw [resolveNode_internal hget2 (by
        rw [show (mergeNode xn.id yn.id xn.parents n).value = n.value from rfl,
          hv]) hb2]
      exact ih f (by omega) c v hcx h
  · rw [resolveNode_leaf hget hv] at h
    rw [resolveNode_leaf hget2 (by
      rw [show (mergeNode xn.id yn.id xn.parents n).value = n.value from rfl, hv])]
    exact h

theorem resolveNode_merge_child {b : Bdd} (wf : WF b) {xn : BNode}
    (hx : xn ∈ b.nodes) (hxv : xn.value = none) {c0 : Nat}
    (hb0 : xn.b0 = some c0) (hb1 : xn.b1 = some c0)
    (rs : ResolverFunctions) (s : List Bool) :
    ∀ f i v, i ≠ xn.id → resolveNode b rs s f i = some v →
      resolveNode (mergeNodeInto b xn.id c0 xn.parents) rs s f i = some v := by
  have hbrx : ∀ lb, nbranch xn lb = some c0 := by
    intro lb
    rcases lb with _ | _
    · exact hb0
    · exact hb1
  have hc0x : c0 ≠ xn.id := child_ne_self wf hx (hbrx false) hx (le_refl _)
  intro f
  induction f using Nat.strong_induction_on with
  | _ f ih =>
  intro i v hix h
  rcases f with _ | f
  · cases h
  rcases hget : getNode b i with _ | n
  · rw [resolveNode_nofind hget] at h; cases h
  have hget2 := getNode_mergeNodeInto_some c0 xn.parents hix hget
  rcases hv : n.value with _ | v2
  · rcases hbr : nbranch n (rs n.level s) with _ | c
    · rw [resolveNode_stuck hget hv hbr] at h; cases h
    rw [resolveNode_internal hget hv hbr] at h
    by_cases hcx : c = xn.id
    · subst hcx
      rcases f with _ | f
      · cases h
      have hgetx : getNode b xn.id = some xn := getNode_self wf hx
      rw [resolveNode_internal hgetx hxv (hbrx (rs xn.level s))] at h
      have hrec := ih f (by omega) c0 v hc0x h
      have hb2 : nbranch (mergeNode xn.id c0 xn.parents n)
          (rs (mergeNode xn.id c0 xn.parents n).level s) = some c0 := by
        rw [show (mergeNode xn.id c0 xn.parents n).level = n.level from rfl,
          mergeNode_nbranch, hbr, redir_some, if_pos rfl]
      rw [resolveNode_internal hget2 (by
        rw [show (mergeNode xn.id c0 xn.parents n).value = n.value from rfl,
          hv]) hb2]
      exact resolveNode_mono hrec
    · have hb2 : nbranch (mergeNode xn.id c0 xn.parents n)
          (rs (mergeNode xn.id c0 xn.parents n).level s) = some c := by
        rw [show (mergeNode xn.id c0 xn.parents n).level = n.level from rfl,
          mergeNode_nbranch, hbr, redir_some, if_neg hcx]
      rw [resolveNode_internal hget2 (by
        rw [show (mergeNode xn.id c0 xn.parents n).value = n.value from rfl,
          hv]) hb2]
      exact ih f (by omega) c v hcx h
  · rw [resolveNode_leaf hget hv] at h
    rw [resolveNode_leaf hget2 (by
      rw [show (mergeNode xn.id c0 xn.parents n).value = n.value from rfl, hv])]
    exact h

theorem findSimilarNode_mem {x : BNode} {cands : List BNode} {y : BNode}
    (h : findSimilarNode x cands = some y) :
    y ∈ cands ∧ isSimilarNode x y = true ∧ y.id ≠ x.id := by
  refine ⟨List.mem_of_find?_eq_some h, ?_⟩
  have := List.find?_some h
  simpa using this

theorem findSimilarNode_none_iff {x : BNode} {cands : List BNode} :
    findSimilarNode x cands = none ↔
      ∀ y ∈ cands, ¬(isSimilarNode x y = true ∧ y.id ≠ x.id) := by
  constructor
  · intro h y hy
    have := List.find?_eq_none.mp h y hy
    simpa using this
  · intro h
    apply List.find?_eq_none.mpr
    intro y hy
    have := h y hy
    simpa using this

theorem mem_getNodesOfLevel {b : Bdd} {l : Nat} {y : BNode} :
    y ∈ getNodesOfLevel b l ↔ y ∈ b.nodes ∧ y.level = l := by
  unfold getNodesOfLevel
  rw [List.mem_filter]
  simp

theorem applyReductionRule_spec (b : Bdd) (x : Nat) :
    applyReductionRule b x = b ∨
      ∃ xn yn, getNode b x = some xn ∧
        findSimilarNode xn (getNodesOfLevel b xn.level) = some yn ∧
        applyReductionRule b x = mergeNodeInto b x yn.id xn.parents := by
  rcases hget : getNode b x with _ | xn
  · left
    unfold applyReductionRule
    simp only [hget]
  rcases hfind : findSimilarNode xn (getNodesOfLevel b xn.level) with _ | yn
  · left
    unfold applyReductionRule
    simp only [hget, hfind]
  · right
    refine ⟨xn, yn, rfl, hfind, ?_⟩
    unfold applyReductionRule
    simp only [hget, hfind]

theorem applyReductionRule_found {b : Bdd} {x : Nat} {xn yn : BNode}
    (hget : getNode b x = some xn)
    (hfind : findSimilarNode xn (getNodesOfLevel b xn.level) = some yn) :
    applyReductionRule b x = mergeNodeInto b x yn.id xn.parents := by
  unfold applyReductionRule
  simp only [hget, hfind]

theorem applyEliminationRule_spec (b : Bdd) (x : Nat) :
    applyEliminationRule b x = b ∨
      ∃ xn c0, getNode b x = some xn ∧ xn.level ≠ 0 ∧ xn.value = none ∧
        xn.b0 = some c0 ∧ xn.b1 = some c0 ∧
        applyEliminationRule b x = mergeNodeInto b x c0 xn.parents := by
  rcases hget : getNode b x with _ | xn
  · left
    unfold applyEliminationRule
    simp only [hget]
  by_cases hl : xn.level = 0
  · left
    unfold applyEliminationRule
    simp only [hget, hl, if_true]
  rcases hv : xn.value with _ | v
  · rcases hb0 : xn.b0 with _ | c0
    · left
      unfold applyEliminationRule
      simp only [hget, hl, if_false, hv, hb0]
    rcases hb1 : xn.b1 with _ | c1
    · left
      unfold applyEliminationRule
      simp only [hget, hl, if_false, hv, hb0, hb1]
    by_cases hcc : c0 = c1
    · right
      refine ⟨xn, c0, rfl, hl, hv, hb0, by rw [hb1, hcc], ?_⟩
      unfold applyEliminationRule
      simp only [hget, hl, if_false, hv, hb0, hb1, hcc, if_true]
    · left
      unfold applyEliminationRule
      simp only [hget, hl, if_false, hv, hb0, hb1, hcc, if_false]
  · left
    unfold applyEliminationRule
    simp only [hget, hl, if_false, hv]

theorem applyEliminationRule_found {b : Bdd} {x : Nat} {xn : BNode} {c0 : Nat}
    (hget : getNode b x = some xn) (hl : xn.level ≠ 0) (hv : xn.value = none)
    (hb0 : xn.b0 = some c0) (hb1 : xn.b1 = some c0) :
    applyEliminationRule b x = mergeNodeInto b x c0 xn.parents := by
  unfold applyEliminationRule
  simp only [hget, hl, if_false, hv, hb0, hb1, if_true]

theorem reduction_found_facts {b : Bdd} (wf : WF b) {x : Nat} {xn yn : BNode}
    (hget : getNode b x = some xn)
    (hfind : findSimilarNode xn (getNodesOfLevel b xn.level) = some yn) :
    xn ∈ b.nodes ∧ x = xn.id ∧ yn ∈ b.nodes ∧ yn.id ≠ xn.id ∧
      0 < xn.level ∧ 0 < yn.level ∧ xn.level ≤ yn.level ∧
      isSimilarNode xn yn = true ∧
      (∀ lb c, nbranch xn lb = some c → c = yn.id ∨ nbranch yn lb = some c) := by
  rcases getNode_mem hget with ⟨hx, hxid⟩
  rcases findSimilarNode_mem hfind with ⟨hymem, hsim, hyne⟩
  have hy : yn ∈ b.nodes := (mem_getNodesOfLevel.mp hymem).1
  rcases (isSimilarNode_true_iff xn yn).mp hsim with ⟨hxl, hyl, hlev, -⟩
  refine ⟨hx, hxid.symm, hy, hyne, by omega, by omega, by omega, hsim, ?_⟩
  intro lb c hbr
  rcases hxv : xn.value with _ | v
  · right
    rw [← similar_nbranch hsim hxv lb]
    exact hbr
  · rcases wf.leafNoBranch xn hx (by rw [hxv]; rfl) with ⟨h0, h1⟩
    rcases lb with _ | _
    · rw [show nbranch xn false = xn.b0 from rfl, h0] at hbr; cases hbr
    · rw [show nbranch xn true = xn.b1 from rfl, h1] at hbr; cases hbr

theorem elimination_found_facts {b : Bdd} (wf : WF b) {x : Nat} {xn : BNode}
    {c0 : Nat} (hget : getNode b x = some xn) (hl : xn.level ≠ 0)
    (hv : xn.value = none) (hb0 : xn.b0 = some c0) (hb1 : xn.b1 = some c0) :
    ∃ m, m ∈ b.nodes ∧ m.id = c0 ∧ xn ∈ b.nodes ∧ x = xn.id ∧ m.id ≠ xn.id ∧
      0 < xn.level ∧ 0 < m.level ∧ xn.level ≤ m.level ∧
      (∀ lb c, nbranch xn lb = some c → c = m.id ∨ nbranch m lb = some c) := by
  rcases getNode_mem hget with ⟨hx, hxid⟩
  rcases wf.closed xn hx false c0 (by rw [show nbranch xn false = xn.b0 from rfl, hb0])
    with ⟨m, hm, hmid, hml⟩
  refine ⟨m, hm, hmid, hx, hxid.symm, ?_, by omega, by omega, by omega, ?_⟩
  · rw [hmid]
    exact child_ne_self wf hx (by rw [show nbranch xn false = xn.b0 from rfl, hb0])
      hx (le_refl _)
  · intro lb c hbr
    left
    rcases lb with _ | _
    · rw [show nbranch xn false = xn.b0 from rfl, hb0] at hbr
      rw [hmid]
      simpa using hbr.symm
    · rw [show nbranch xn true = xn.b1 from rfl, hb1] at hbr
      rw [hmid]
      simpa using hbr.symm

theorem applyReductionRule_WF {b : Bdd} (wf : WF b) (x : Nat) :
    WF (applyReductionRule b x) := by
  rcases applyReductionRule_spec b x with he | ⟨xn, yn, hget, hfind, he⟩
  · rw [he]; exact wf
  · rcases reduction_found_facts wf hget hfind with
      ⟨hx, hxid, hy, hyne, hxl, hyl, hlev, hsim, hchild⟩
    rw [he, hxid]
    exact mergeNodeInto_WF wf hx hy hyne hxl hyl hlev hchild

theorem applyEliminationRule_WF {b : Bdd} (wf : WF b) (x : Nat) :
    WF (applyEliminationRule b x) := by
  rcases applyEliminationRule_spec b x with he | ⟨xn, c0, hget, hl, hv, hb0, hb1, he⟩
  · rw [he]; exact wf
  · rcases elimination_found_facts wf hget hl hv hb0 hb1 with
      ⟨m, hm, hmid, hx, hxid, hne, hxl, hml, hlev, hchild⟩
    rw [he, hxid, ← hmid]
    exact mergeNodeInto_WF wf hx hm hne hxl hml hlev hchild

theorem applyReductionRule_len {b : Bdd} (wf : WF b) (x : Nat) :
    applyReductionRule b x = b ∨
      (applyReductionRule b x).nodes.length + 1 = b.nodes.length := by
  rcases applyReductionRule_spec b x with he | ⟨xn, yn, hget, hfind, he⟩
  · left; exact he
  · right
    rcases getNode_mem hget with ⟨hx, hxid⟩
    rw [he, ← hxid]
    exact length_mergeNodeInto wf.nodup hx _ _

theorem applyEliminationRule_len {b : Bdd} (wf : WF b) (x : Nat) :
    applyEliminationRule b x = b ∨
      (applyEliminationRule b x).nodes.length + 1 = b.nodes.length := by
  rcases applyEliminationRule_spec b x with he | ⟨xn, c0, hget, hl, hv, hb0, hb1, he⟩
  · left; exact he
  · right
    rcases getNode_mem hget with ⟨hx, hxid⟩
    rw [he, ← hxid]
    exact length_mergeNodeInto wf.nodup hx _ _

theorem applyReductionRule_depth (b : Bdd) (x : Nat) :
    (applyReductionRule b x).depth = b.depth := by
  rcases applyReductionRule_spec b x with he | ⟨xn, yn, -, -, he⟩ <;> rw [he] <;> rfl

theorem applyReductionRule_rootId (b : Bdd) (x : Nat) :
    (applyReductionRule b x).rootId = b.rootId := by
  rcases applyReductionRule_spec b x with he | ⟨xn, yn, -, -, he⟩ <;> rw [he] <;> rfl

theorem applyEliminationRule_depth (b : Bdd) (x : Nat) :
    (applyEliminationRule b x).depth = b.depth := by
  rcases applyEliminationRule_spec b x with he | ⟨xn, c0, -, -, -, -, -, he⟩ <;>
    rw [he] <;> rfl

theorem applyEliminationRule_rootId (b : Bdd) (x : Nat) :
    (applyEliminationRule b x).rootId = b.rootId := by
  rcases applyEliminationRule_spec b x with he | ⟨xn, c0, -, -, -, -, -, he⟩ <;>
    rw [he] <;> rfl

theorem applyReductionRule_resolve {b : Bdd} (wf : WF b) (x : Nat)
    {rs : ResolverFunctions} {s : List Bool} {f : Nat} {v : String}
    (h : resolveNode b rs s f b.rootId = some v) :
    resolveNode (applyReductionRule b x) rs s f
      (applyReductionRule b x).rootId = some v := by
  rcases applyReductionRule_spec b x with he | ⟨xn, yn, hget, hfind, he⟩
  · rw [he]; exact h
  · rcases reduction_found_facts wf hget hfind with
      ⟨hx, hxid, hy, hyne, hxl, hyl, hlev, hsim, hchild⟩
    rw [he, hxid]
    rw [show (mergeNodeInto b xn.id yn.id xn.parents).rootId = b.rootId from rfl]
    exact resolveNode_merge_similar wf hx hy hyne hsim rs s f b.rootId v
      (root_ne_of_pos_level wf hx hxl) h

theorem applyEliminationRule_resolve {b : Bdd} (wf : WF b) (x : Nat)
    {rs : ResolverFunctions} {s : List Bool} {f : Nat} {v : String}
    (h : resolveNode b rs s f b.rootId = some v) :
    resolveNode (applyEliminationRule b x) rs s f
      (applyEliminationRule b x).rootId = some v := by
  rcases applyEliminationRule_spec b x with he | ⟨xn, c0, hget, hl, hv, hb0, hb1, he⟩
  · rw [he]; exact h
  · rcases getNode_mem hget with ⟨hx, hxid⟩
    rw [he, ← hxid]
    rw [show (mergeNodeInto b xn.id c0 xn.parents).rootId = b.rootId from rfl]
    exact resolveNode_merge_child wf hx hv hb0 hb1 rs s f b.rootId v
      (root_ne_of_pos_level wf hx (by omega)) h

theorem goodStep_applyReductionRule : GoodStep applyReductionRule := by
  intro b x wf
  exact ⟨applyReductionRule_WF wf x, applyReductionRule_len wf x,
    applyReductionRule_depth b x, applyReductionRule_rootId b x,
    fun rs s f v h => applyReductionRule_resolve wf x h⟩

theorem goodStep_applyEliminationRule : GoodStep applyEliminationRule := by
  intro b x wf
  exact ⟨applyEliminationRule_WF wf x, applyEliminationRule_len wf x,
    applyEliminationRule_depth b x, applyEliminationRule_rootId b x,
    fun rs s f v h => applyEliminationRule_resolve wf x h⟩

theorem goodStep_contract {op : Bdd → Nat → Bdd} (hop : GoodStep op) :
    ContractStep op := by
  intro b x wf
  rcases hop b x wf with ⟨h1, h2, h3, h4, h5⟩
  refine ⟨h1, ?_, ?_, h3, h4, h5⟩
  · rcases h2 with he | hlen
    · rw [he]
    · omega
  · intro hl
    rcases h2 with he | hlen
    · exact he
    · omega

theorem foldl_contract {op : Bdd → Nat → Bdd} (hop : ContractStep op) :
    ∀ (xs : List Nat) (b : Bdd), WF b →
      WF (xs.foldl op b) ∧
      (xs.foldl op b).nodes.length ≤ b.nodes.length ∧
      (xs.foldl op b).depth = b.depth ∧ (xs.foldl op b).rootId = b.rootId ∧
      ∀ rs s f v, resolveNode b rs s f b.rootId = some v →
        resolveNode (xs.foldl op b) rs s f (xs.foldl op b).rootId = some v := by
  intro xs
  induction xs with
  | nil => intro b wf; exact ⟨wf, le_refl _, rfl, rfl, fun rs s f v h => h⟩
  | cons x xs ih =>
    intro b wf
    rcases hop b x wf with ⟨h1, h2, h3, h4, h5, h6⟩
    rcases ih (op b x) h1 with ⟨g1, g2, g3, g4, g5⟩
    rw [List.foldl_cons]
    refine ⟨g1, by omega, by rw [g3, h4], by rw [g4, h5], ?_⟩
    intro rs s f v h
    exact g5 rs s f v (h6 rs s f v h)

theorem foldl_contract_id {op : Bdd → Nat → Bdd} (hop : ContractStep op) :
    ∀ (xs : List Nat) (b : Bdd), WF b →
      (xs.foldl op b).nodes.length = b.nodes.length →
      xs.foldl op b = b ∧ ∀ x ∈ xs, op b x = b := by
  intro xs
  induction xs with
  | nil => intro b wf h; exact ⟨rfl, by simp⟩
  | cons x xs ih =>
    intro b wf hlen
    rw [List.foldl_cons] at hlen
    rcases hop b x wf with ⟨h1, h2, h3, -, -, -⟩
    rcases foldl_contract hop xs (op b x) h1 with ⟨-, g2, -, -, -⟩
    have heq : (op b x).nodes.length = b.nodes.length := by omega
    have hid : op b x = b := h3 heq
    rw [hid] at hlen
    rcases ih b wf hlen with ⟨hfold, hall⟩
    rw [List.foldl_cons, hid]
    refine ⟨hfold, ?_⟩
    intro z hz
    rcases List.mem_cons.mp hz with rfl | hz2
    · exact hid
    · exact hall z hz2

theorem passLevel_eq (b : Bdd) (l : Nat) :
    passLevel b l =
      ((getNodesOfLevel (((getNodesOfLevel b l).map (fun n => n.id)).foldl
        applyReductionRule b) l).map (fun n => n.id)).foldl applyEliminationRule
        (((getNodesOfLevel b l).map (fun n => n.id)).foldl applyReductionRule b) :=
  rfl

theorem passLevel_contract : ContractStep passLevel := by
  intro b l wf
  obtain ⟨h1, h2, h3, h4, h5⟩ :=
    foldl_contract (goodStep_contract goodStep_applyReductionRule)
      ((getNodesOfLevel b l).map (fun n => n.id)) b wf
  obtain ⟨g1, g2, g3, g4, g5⟩ :=
    foldl_contract (goodStep_contract goodStep_applyEliminationRule)
      ((getNodesOfLevel (((getNodesOfLevel b l).map (fun n => n.id)).foldl
        applyReductionRule b) l).map (fun n => n.id))
      (((getNodesOfLevel b l).map (fun n => n.id)).foldl applyReductionRule b) h1
  rw [passLevel_eq]
  refine ⟨g1, by omega, ?_, by rw [g3, h3], by rw [g4, h4], ?_⟩
  · intro hlen
    have he1 : (((getNodesOfLevel b l).map (fun n => n.id)).foldl
        applyReductionRule b).nodes.length = b.nodes.length := by omega
    obtain ⟨hid1, -⟩ :=
      foldl_contract_id (goodStep_contract goodStep_applyReductionRule)
        ((getNodesOfLevel b l).map (fun n => n.id)) b wf he1
    rw [hid1] at hlen ⊢
    obtain ⟨hid2, -⟩ :=
      foldl_contract_id (goodStep_contract goodStep_applyEliminationRule)
        ((getNodesOfLevel b l).map (fun n => n.id)) b wf hlen
    exact hid2
  · intro rs s f v h
    exact g5 rs s f v (h5 rs s f v h)

theorem passLevel_id_parts {b : Bdd} (wf : WF b) {l : Nat}
    (hlen : (passLevel b l).nodes.length = b.nodes.length) :
    passLevel b l = b ∧
      ∀ x ∈ (getNodesOfLevel b l).map (fun n => n.id),
        applyReductionRule b x = b ∧ applyEliminationRule b x = b := by
  rw [passLevel_eq] at hlen
  obtain ⟨h1, h2, h3, h4, h5⟩ :=
    foldl_contract (goodStep_contract goodStep_applyReductionRule)
      ((getNodesOfLevel b l).map (fun n => n.id)) b wf
  obtain ⟨g1, g2, g3, g4, g5⟩ :=
    foldl_contract (goodStep_contract goodStep_applyEliminationRule)
      ((getNodesOfLevel (((getNodesOfLevel b l).map (fun n => n.id)).foldl
        applyReductionRule b) l).map (fun n => n.id))
      (((getNodesOfLevel b l).map (fun n => n.id)).foldl applyReductionRule b) h1
  have he1 : (((getNodesOfLevel b l).map (fun n => n.id)).foldl
      applyReductionRule b).nodes.length = b.nodes.length := by omega
  obtain ⟨hid1, hall1⟩ :=
    foldl_contract_id (goodStep_contract goodStep_applyReductionRule)
      ((getNodesOfLevel b l).map (fun n => n.id)) b wf he1
  rw [hid1] at hlen
  obtain ⟨hid2, hall2⟩ :=
    foldl_contract_id (goodStep_contract goodStep_applyEliminationRule)
      ((getNodesOfLevel b l).map (fun n => n.id)) b wf hlen
  refine ⟨?_, fun x hx => ⟨hall1 x hx, hall2 x hx⟩⟩
  rw [passLevel_eq, hid1]
  exact hid2

theorem minimizePass_props {b : Bdd} (wf : WF b) :
    WF (minimizePass b) ∧ (minimizePass b).nodes.length ≤ b.nodes.length ∧
    ((minimizePass b).nodes.length = b.nodes.length → minimizePass b = b) ∧
    (minimizePass b).depth = b.depth ∧ (minimizePass b).rootId = b.rootId ∧
    ∀ rs s f v, resolveNode b rs s f b.rootId = some v →
      resolveNode (minimizePass b) rs s f (minimizePass b).rootId = some v := by
  obtain ⟨h1, h2, h3, h4, h5⟩ := foldl_contract passLevel_contract
    (((List.range b.depth).map (fun i => i + 1)).reverse) b wf
  refine ⟨h1, h2, ?_, h3, h4, h5⟩
  intro hlen
  exact (foldl_contract_id passLevel_contract _ b wf hlen).1

theorem minimizePass_id_parts {b : Bdd} (wf : WF b)
    (hlen : (minimizePass b).nodes.length = b.nodes.length) :
    ∀ l ∈ ((List.range b.depth).map (fun i => i + 1)).reverse,
      passLevel b l = b :=
  (foldl_contract_id passLevel_contract _ b wf hlen).2

theorem minimizeRec_props : ∀ (fuel : Nat) {b : Bdd}, WF b →
    WF (minimizeRec fuel b) ∧
    (minimizeRec fuel b).nodes.length ≤ b.nodes.length ∧
    (minimizeRec fuel b).depth = b.depth ∧
    (minimizeRec fuel b).rootId = b.rootId ∧
    ∀ rs s f v, resolveNode b rs s f b.rootId = some v →
      resolveNode (minimizeRec fuel b) rs s f (minimizeRec fuel b).rootId =
        some v := by
  intro fuel
  induction fuel with
  | zero =>
    intro b wf
    exact ⟨wf, le_refl _, rfl, rfl, fun _ _ _ _ h => h⟩
  | succ fuel ih =>
    intro b wf
    obtain ⟨p1, p2, p3, p4, p5, p6⟩ := minimizePass_props wf
    rw [minimizeRec]
    by_cases hlt : (minimizePass b).nodes.length < b.nodes.length
    · rw [if_pos hlt]
      obtain ⟨q1, q2, q3, q4, q5⟩ := ih p1
      refine ⟨q1, by omega, by rw [q3, p4], by rw [q4, p5], ?_⟩
      intro rs s f v h
      exact q5 rs s f v (p6 rs s f v h)
    · rw [if_neg hlt]
      exact ⟨p1, p2, p4, p5, p6⟩

theorem minimizeRec_fix : ∀ (fuel : Nat) {b : Bdd}, WF b →
    b.nodes.length < fuel →
    minimizePass (minimizeRec fuel b) = minimizeRec fuel b := by
  intro fuel
  induction fuel with
  | zero => intro b wf h; omega
  | succ fuel ih =>
    intro b wf hle
    rw [minimizeRec]
    obtain ⟨p1, p2, p3, p4, p5, p6⟩ := minimizePass_props wf
    by_cases hlt : (minimizePass b).nodes.length < b.nodes.length
    · rw [if_pos hlt]
      exact ih p1 (by omega)
    · rw [if_neg hlt]
      have heq : (minimizePass b).nodes.length = b.nodes.length := by omega
      have hbb := p3 heq
      rw [hbb]
      exact hbb

theorem minimize_props {b : Bdd} (wf : WF b) (u : Bool) :
    WF (minimize b u) ∧ (minimize b u).nodes.length ≤ b.nodes.length ∧
    (minimize b u).depth = b.depth ∧ (minimize b u).rootId = b.rootId ∧
    ∀ rs s f v, resolveNode b rs s f b.rootId = some v →
      resolveNode (minimize b u) rs s f (minimize b u).rootId = some v := by
  rcases u with _ | _
  · obtain ⟨p1, p2, p3, p4, p5, p6⟩ := minimizePass_props wf
    exact ⟨p1, p2, p4, p5, p6⟩
  · exact minimizeRec_props (b.nodes.length + 1) wf

theorem minimize_fixpoint {b : Bdd} (wf : WF b) :
    minimizePass (minimize b true) = minimize b true :=
  minimizeRec_fix (b.nodes.length + 1) wf (by omega)

theorem hasEqualBranches_true_iff (n : BNode) :
    hasEqualBranches n = true ↔ ∃ a, n.b0 = some a ∧ n.b1 = some a := by
  unfold hasEqualBranches
  rcases h0 : n.b0 with _ | a <;> rcases h1 : n.b1 with _ | a2 <;> simp <;>
    exact eq_comm

theorem mem_levels_list {b : Bdd} {l : Nat} (h1 : 1 ≤ l) (h2 : l ≤ b.depth) :
    l ∈ ((List.range b.depth).map (fun i => i + 1)).reverse := by
  rw [List.mem_reverse, List.mem_map]
  exact ⟨l - 1, by rw [List.mem_range]; omega, by omega⟩

theorem fixpoint_consequences {m : Bdd} (wf : WF m)
    (hfix : minimizePass m = m) :
    (∀ x ∈ m.nodes, ∀ y ∈ m.nodes, x ≠ y → isSimilarNode x y = false) ∧
    (∀ x ∈ m.nodes, x.value = none → x.level ≠ 0 → hasEqualBranches x = false) := by
  have hlen : (minimizePass m).nodes.length = m.nodes.length := by rw [hfix]
  have hlevels := minimizePass_id_parts wf hlen
  have hops : ∀ x ∈ m.nodes, x.level ≠ 0 →
      applyReductionRule m x.id = m ∧ applyEliminationRule m x.id = m := by
    intro x hx hxl
    have hl1 : 1 ≤ x.level := by omega
    have hl2 : x.level ≤ m.depth := wf.levelLe x hx
    have hpl := hlevels x.level (mem_levels_list hl1 hl2)
    have hplen : (passLevel m x.level).nodes.length = m.nodes.length := by rw [hpl]
    obtain ⟨-, hall⟩ := passLevel_id_parts wf hplen
    apply hall
    rw [List.mem_map]
    exact ⟨x, mem_getNodesOfLevel.mpr ⟨hx, rfl⟩, rfl⟩
  constructor
  · intro x hx y hy hne
    by_cases hxl : x.level = 0
    · rcases hsim : isSimilarNode x y with _ | _
      · rfl
      · rcases (isSimilarNode_true_iff x y).mp hsim with ⟨h0, -⟩
        exact absurd hxl h0
    · obtain ⟨hred, -⟩ := hops x hx hxl
      rcases hsim : isSimilarNode x y with _ | _
      · rfl
      exfalso
      have hgetx : getNode m x.id = some x := getNode_self wf hx
      rcases hfind : findSimilarNode x (getNodesOfLevel m x.level) with _ | z
      · have := findSimilarNode_none_iff.mp hfind y
          (mem_getNodesOfLevel.mpr ⟨hy, ((isSimilarNode_true_iff x y).mp
            hsim).2.2.1.symm⟩)
        apply this
        refine ⟨hsim, ?_⟩
        intro he
        exact hne (mem_id_unique wf.nodup hx hy he.symm)
      · have hmerge := applyReductionRule_found hgetx hfind
        rw [hred] at hmerge
        have hlen2 := length_mergeNodeInto wf.nodup hx z.id x.parents
        rw [← hmerge] at hlen2
        omega
  · intro x hx hxv hxl
    obtain ⟨-, helim⟩ := hops x hx hxl
    rcases heb : hasEqualBranches x with _ | _
    · rfl
    exfalso
    rcases (hasEqualBranches_true_iff x).mp heb with ⟨a, hb0, hb1⟩
    have hmerge := applyEliminationRule_found (getNode_self wf hx) hxl hxv hb0 hb1
    rw [helim] at hmerge
    have hlen2 := length_mergeNodeInto wf.nodup hx a x.parents
    rw [← hmerge] at hlen2
    omega

theorem mem_expandIds_left {ns : List BNode} {ids : List Nat} {i : Nat}
    (h : i ∈ ids) : i ∈ expandIds ns ids := by
  unfold expandIds
  rw [List.mem_dedup]
  exact List.mem_append_left _ h

theorem mem_expandIds_child {ns : List BNode} {ids : List Nat} {i : Nat}
    (h : i ∈ ids) {n : BNode} (hn : ns.find? (fun n2 => n2.id == i) = some n)
    {c : Nat} (hc : c ∈ childIds n) : c ∈ expandIds ns ids := by
  unfold expandIds
  rw [List.mem_dedup]
  apply List.mem_append_right
  rw [List.mem_flatMap]
  refine ⟨i, h, ?_⟩
  rw [hn]
  exact hc

theorem reachIdsAux_start {ns : List BNode} {start : Nat} :
    ∀ k, start ∈ reachIdsAux ns start k := by
  intro k
  induction k with
  | zero => exact List.mem_singleton.mpr rfl
  | succ k ih => exact mem_expandIds_left ih

theorem reachIdsAux_mono {ns : List BNode} {start : Nat} {k : Nat} {i : Nat}
    (h : i ∈ reachIdsAux ns start k) : i ∈ reachIdsAux ns start (k + 1) :=
  mem_expandIds_left h

theorem reachIdsAux_le {ns : List BNode} {start : Nat} {k k2 : Nat}
    (hk : k ≤ k2) {i : Nat} (h : i ∈ reachIdsAux ns start k) :
    i ∈ reachIdsAux ns start k2 := by
  induction k2 with
  | zero =>
    have : k = 0 := by omega
    rw [← this]
    exact h
  | succ k2 ih =>
    rcases Nat.eq_or_lt_of_le hk with rfl | hlt
    · exact h
    · exact reachIdsAux_mono (ih (by omega))

theorem nbranch_mem_childIds {n : BNode} {lb : Bool} {c : Nat}
    (h : nbranch n lb = some c) : c ∈ childIds n := by
  unfold childIds
  rcases lb with _ | _
  · rw [show nbranch n false = n.b0 from rfl] at h
    apply List.mem_append_left
    rw [h]
    exact List.mem_singleton.mpr rfl
  · rw [show nbranch n true = n.b1 from rfl] at h
    apply List.mem_append_right
    rw [h]
    exact List.mem_singleton.mpr rfl

theorem mem_childIds_nbranch {n : BNode} {c : Nat} (h : c ∈ childIds n) :
    ∃ lb, nbranch n lb = some c := by
  unfold childIds at h
  rcases List.mem_append.mp h with h0 | h1
  · refine ⟨false, ?_⟩
    rcases hb : n.b0 with _ | d
    · rw [hb] at h0; cases h0
    · rw [hb] at h0
      have hcd : c = d := by simpa using h0
      rw [show nbranch n false = n.b0 from rfl, hb, hcd]
  · refine ⟨true, ?_⟩
    rcases hb : n.b1 with _ | d
    · rw [hb] at h1; cases h1
    · rw [hb] at h1
      have hcd : c = d := by simpa using h1
      rw [show nbranch n true = n.b1 from rfl, hb, hcd]

theorem reachIdsAux_sound {b : Bdd} :
    ∀ k {i : Nat}, i ∈ reachIdsAux b.nodes b.rootId k → Reaches b b.rootId i := by
  intro k
  induction k with
  | zero =>
    intro i h
    rw [List.mem_singleton.mp h]
    exact Reaches.refl _
  | succ k ih =>
    intro i h
    unfold reachIdsAux expandIds at h
    rw [List.mem_dedup] at h
    rcases List.mem_append.mp h with h1 | h2
    · exact ih h1
    · rw [List.mem_flatMap] at h2
      rcases h2 with ⟨j, hj, hji⟩
      rcases hfind : b.nodes.find? (fun n2 => n2.id == j) with _ | n
      · rw [hfind] at hji
        cases hji
      · rw [hfind] at hji
        rcases mem_childIds_nbranch hji with ⟨lb, hbr⟩
        exact Reaches.step (ih hj) hfind hbr

theorem reachIdsAux_complete {b : Bdd}
    (hmono : ∀ n ∈ b.nodes, ∀ lb c, nbranch n lb = some c →
      ∃ m2 ∈ b.nodes, m2.id = c ∧ n.level < m2.level)
    (nd : (b.nodes.map (fun n => n.id)).Nodup) :
    ∀ {j : Nat}, Reaches b b.rootId j →
      j = b.rootId ∨
      ∃ jn, getNode b j = some jn ∧ 0 < jn.level ∧
        j ∈ reachIdsAux b.nodes b.rootId jn.level := by
  intro j hr
  induction hr with
  | refl => left; rfl
  | @step j k nj lb hr2 hget hbr ih =>
    right
    rcases hmono nj (getNode_mem hget).1 lb k hbr with ⟨kn, hkmem, hkid, hklev⟩
    have hgetk : getNode b k = some kn := by
      rw [← hkid]
      exact getNode_eq_some nd hkmem
    refine ⟨kn, hgetk, ?_, ?_⟩
    · omega
    · have hkstep : ∀ kbase : Nat, j ∈ reachIdsAux b.nodes b.rootId kbase →
          k ∈ reachIdsAux b.nodes b.rootId (kbase + 1) := by
        intro kbase hj
        exact mem_expandIds_child hj hget (nbranch_mem_childIds hbr)
      rcases ih with hjr | ⟨jn, hgetj, hjl, hjmem⟩
      · have h0 : j ∈ reachIdsAux b.nodes b.rootId 0 := by
          rw [hjr]
          exact reachIdsAux_start 0
        exact reachIdsAux_le (by omega : 0 + 1 ≤ kn.level) (hkstep 0 h0)
      · have hjn : jn = nj := by
          rw [hget] at hgetj
          exact Option.some.inj hgetj.symm
        rw [hjn] at hjmem
        exact reachIdsAux_le (by omega : nj.level + 1 ≤ kn.level)
          (hkstep nj.level hjmem)

theorem reach_mem_reachIds {b : Bdd} (wf : WF b) {n : BNode} (hn : n ∈ b.nodes) :
    n.id ∈ reachIds b := by
  unfold reachIds
  rcases reachIdsAux_complete wf.closed wf.nodup (wf.reach n hn) with he | hr
  · rw [he]
    exact reachIdsAux_start _
  · rcases hr with ⟨jn, hget, hjl, hjmem⟩
    have : jn = n := by
      have h2 := getNode_self wf hn
      rw [hget] at h2
      exact Option.some.inj h2
    rw [this] at hjmem
    exact reachIdsAux_le (wf.levelLe n hn) hjmem

theorem count_edgesIntoList (ns : List BNode) (c : Nat) (p : Nat) (lb : Bool) :
    (edgesIntoList ns c).count (p, lb) = countEdges ns p lb c := by
  induction ns with
  | nil => rfl
  | cons n t ih =>
    unfold edgesIntoList countEdges
    rw [List.flatMap_cons, List.count_append, List.count_append, List.countP_cons]
    unfold edgesIntoList countEdges at ih
    rw [ih]
    have hsing : ((if n.b0 == some c then [(n.id, false)] else []).count (p, lb) +
        (if n.b1 == some c then [(n.id, true)] else []).count (p, lb)) =
        if (n.id == p && nbranch n lb == some c) = true then 1 else 0 := by
      rcases lb with _ | _
      · rw [show nbranch n false = n.b0 from rfl]
        by_cases h0 : n.b0 = some c <;> by_cases hp : n.id = p <;>
          by_cases h1 : n.b1 = some c <;>
          simp [h0, hp, h1, List.count_cons, Prod.ext_iff]
      · rw [show nbranch n true = n.b1 from rfl]
        by_cases h0 : n.b0 = some c <;> by_cases hp : n.id = p <;>
          by_cases h1 : n.b1 = some c <;>
          simp [h0, hp, h1, List.count_cons, Prod.ext_iff]
    omega

theorem count_inst_swap (l : List (Nat × Bool)) (a : Nat × Bool) :
    @List.count (Nat × Bool) instBEqProd a l =
      @List.count (Nat × Bool) instBEqOfDecidableEq a l := by
  induction l with
  | nil => rfl
  | cons x t ih =>
    rw [@List.count_cons _ instBEqProd, @List.count_cons _ instBEqOfDecidableEq, ih]
    by_cases h : x = a
    · have h1 : (x == a) = true := by simpa using h
      have h2 : (@BEq.beq _ instBEqOfDecidableEq x a) = true := by
        simp only [instBEqOfDecidableEq]
        simpa using h
      rw [h1, h2]
    · have h1 : (x == a) = false := by simpa using h
      have h2 : (@BEq.beq _ instBEqOfDecidableEq x a) = false := by
        simp only [instBEqOfDecidableEq]
        simpa using h
      rw [h1, h2]

theorem perm_of_counts {l1 l2 : List (Nat × Bool)}
    (h : ∀ a : Nat × Bool, l1.count a = l2.count a) : l1.Perm l2 := by
  rw [List.perm_iff_count]
  intro a
  rw [← count_inst_swap, ← count_inst_swap]
  exact h a

theorem parents_perm_edges {b : Bdd} (wf : WF b) {n : BNode} (hn : n ∈ b.nodes) :
    n.parents.Perm (edgesIntoList b.nodes n.id) := by
  apply perm_of_counts
  intro a
  rcases a with ⟨p, lb⟩
  rw [count_edgesIntoList]
  exact wf.mirror n hn p lb

theorem WF_ensureCorrectBddMonotone {b : Bdd} (wf : WF b) :
    ensureCorrectBddMonotone b = true := by
  unfold ensureCorrectBddMonotone ensureCorrectBddWith
  rcases wf.root_mem with ⟨r, hroot, hrl, hrv, hrp⟩
  rw [hroot]
  rw [Bool.and_eq_true]
  constructor
  · dsimp only
    rw [hrl, hrv, hrp]
    rfl
  · rw [List.all_eq_true]
    intro n hn
    unfold nodeOk
    rw [Bool.and_eq_true, Bool.and_eq_true, Bool.and_eq_true, Bool.and_eq_true,
      Bool.and_eq_true]
    refine ⟨⟨⟨⟨⟨?_, ?_⟩, ?_⟩, ?_⟩, ?_⟩, ?_⟩
    · by_cases h0 : n.level = 0
      · have := wf.level0 n hn h0
        simp [this]
      · simp [h0]
    · unfold branchOk
      rcases hbr : nbranch n false with _ | c
      · rfl
      · dsimp only
        rcases wf.closed n hn false c hbr with ⟨m2, hm2, hid, hlev⟩
        have hget : getNode b c = some m2 := by
          rw [← hid]
          exact getNode_self wf hm2
        rw [hget]
        simp [hlev]
    · unfold branchOk
      rcases hbr : nbranch n true with _ | c
      · rfl
      · dsimp only
        rcases wf.closed n hn true c hbr with ⟨m2, hm2, hid, hlev⟩
        have hget : getNode b c = some m2 := by
          rw [← hid]
          exact getNode_self wf hm2
        rw [hget]
        simp [hlev]
    · have hiff := wf.leafLevel n hn
      by_cases hl : n.level = b.depth
      · simp [hl, hiff.mpr hl]
      · have hns : ¬ n.value.isSome = true := fun hv => hl (hiff.mp hv)
        simp [hl, hns]
    · have hperm := parents_perm_edges wf hn
      unfold multisetEq
      rw [Bool.and_eq_true]
      constructor
      · simp [hperm.length_eq]
      · rw [List.all_eq_true]
        intro a ha
        rcases a with ⟨p, lb⟩
        rw [beq_iff_eq, count_edgesIntoList]
        exact wf.mirror n hn p lb
    · have := reach_mem_reachIds wf hn
      simpa using this

theorem replFun_nofind {b : Bdd} {m : String} {f i : Nat}
    (h : getNode b i = none) : replFun b m (f + 1) i = none := by
  rw [replFun, h]

theorem replFun_leaf {b : Bdd} {m : String} {f i : Nat} {n : BNode} {v : String}
    (hget : getNode b i = some n) (hv : n.value = some v) :
    replFun b m (f + 1) i = if v = m then none else some i := by
  rw [replFun, hget]
  dsimp only
  rw [hv]

theorem replFun_internal {b : Bdd} {m : String} {f i : Nat} {n : BNode}
    (hget : getNode b i = some n) (hv : n.value = none) :
    replFun b m (f + 1) i =
      (match n.b0.bind (replFun b m f), n.b1.bind (replFun b m f) with
       | none, none => none
       | some c, none => some c
       | none, some c => some c
       | some c0, some c1 => if c0 = c1 then some c0 else some i) := by
  rw [replFun, hget]
  dsimp only
  rw [hv]

theorem replFun_stable {b : Bdd} (wf : WF b) (m : String) :
    ∀ f1 f2 {i : Nat} {n : BNode}, getNode b i = some n →
      b.depth + 1 - n.level ≤ f1 → b.depth + 1 - n.level ≤ f2 →
      replFun b m f1 i = replFun b m f2 i := by
  intro f1
  induction f1 using Nat.strong_induction_on with
  | _ f1 ih =>
  intro f2 i n hget hb1 hb2
  have hlev : n.level ≤ b.depth := wf.levelLe n (getNode_mem hget).1
  have hf1 : 1 ≤ f1 := by omega
  have hf2 : 1 ≤ f2 := by omega
  rcases f1 with _ | f1
  · omega
  rcases f2 with _ | f2
  · omega
  rcases hv : n.value with _ | v
  · rw [replFun_internal hget hv, replFun_internal hget hv]
    have hchild : ∀ c, nbranch n false = some c ∨ nbranch n true = some c →
        replFun b m f1 c = replFun b m f2 c := by
      intro c hc
      have hcl : ∃ cn, getNode b c = some cn ∧ n.level < cn.level := by
        rcases hc with hc | hc
        · rcases wf.closed n (getNode_mem hget).1 false c hc with ⟨cn, hcn, hcid, hl⟩
          exact ⟨cn, by rw [← hcid]; exact getNode_self wf hcn, hl⟩
        · rcases wf.closed n (getNode_mem hget).1 true c hc with ⟨cn, hcn, hcid, hl⟩
          exact ⟨cn, by rw [← hcid]; exact getNode_self wf hcn, hl⟩
      rcases hcl with ⟨cn, hgetc, hl⟩
      have hclev : cn.level ≤ b.depth := wf.levelLe cn (getNode_mem hgetc).1
      exact ih f1 (by omega) f2 hgetc (by omega) (by omega)
    have h0 : n.b0.bind (replFun b m f1) = n.b0.bind (replFun b m f2) := by
      rcases hbb0 : n.b0 with _ | c
      · rfl
      · show replFun b m f1 c = replFun b m f2 c
        exact hchild c (Or.inl (by rw [show nbranch n false = n.b0 from rfl, hbb0]))
    have h1 : n.b1.bind (replFun b m f1) = n.b1.bind (replFun b m f2) := by
      rcases hbb1 : n.b1 with _ | c
      · rfl
      · show replFun b m f1 c = replFun b m f2 c
        exact hchild c (Or.inr (by rw [show nbranch n true = n.b1 from rfl, hbb1]))
    rw [h0, h1]
  · rw [replFun_leaf hget hv, replFun_leaf hget hv]

theorem replFun_result {b : Bdd} (wf : WF b) (m : String) :
    ∀ f {i : Nat} {nn : BNode} {j : Nat}, getNode b i = some nn →
      b.depth + 1 - nn.level ≤ f → replFun b m f i = some j →
      ∃ jn, getNode b j = some jn ∧ nn.level ≤ jn.level ∧
        pruneRep b m j = some j := by
  intro f
  induction f using Nat.strong_induction_on with
  | _ f ih =>
  intro i nn j hget hb hrep
  have hlev : nn.level ≤ b.depth := wf.levelLe nn (getNode_mem hget).1
  rcases f with _ | f
  · omega
  have hchild : ∀ lb cb c2, nbranch nn lb = some cb →
      replFun b m f cb = some c2 →
      ∃ jn, getNode b c2 = some jn ∧ nn.level < jn.level ∧
        pruneRep b m c2 = some c2 := by
    intro lb cb c2 hbr hrep2
    rcases wf.closed nn (getNode_mem hget).1 lb cb hbr with ⟨cn, hcn, hcid, hl⟩
    have hgetc : getNode b cb = some cn := by
      rw [← hcid]
      exact getNode_self wf hcn
    have hclev : cn.level ≤ b.depth := wf.levelLe cn hcn
    rcases ih f (by omega) hgetc (by omega) hrep2 with ⟨jn, hjn, hjl, hjs⟩
    exact ⟨jn, hjn, by omega, hjs⟩
  rcases hv : nn.value with _ | v
  · rw [replFun_internal hget hv] at hrep
    rcases hr0 : nn.b0.bind (replFun b m f) with _ | c0 <;>
      rcases hr1 : nn.b1.bind (replFun b m f) with _ | c1 <;>
      rw [hr0, hr1] at hrep <;> dsimp only at hrep
    · cases hrep
    · -- only branch "1" survives
      rcases Option.bind_eq_some.mp hr1 with ⟨cb, hcb, hrep2⟩
      have hj : j = c1 := by simpa using hrep.symm
      subst hj
      rcases hchild true cb j (by rw [show nbranch nn true = nn.b1 from rfl, hcb])
        hrep2 with ⟨jn, h1, h2, h3⟩
      exact ⟨jn, h1, by omega, h3⟩
    · rcases Option.bind_eq_some.mp hr0 with ⟨cb, hcb, hrep2⟩
      have hj : j = c0 := by simpa using hrep.symm
      subst hj
      rcases hchild false cb j (by rw [show nbranch nn false = nn.b0 from rfl, hcb])
        hrep2 with ⟨jn, h1, h2, h3⟩
      exact ⟨jn, h1, by omega, h3⟩
    · by_cases hcc : c0 = c1
      · rw [if_pos hcc] at hrep
        rcases Option.bind_eq_some.mp hr0 with ⟨cb, hcb, hrep2⟩
        have hj : j = c0 := by simpa using hrep.symm
        subst hj
        rcases hchild false cb j (by rw [show nbranch nn false = nn.b0 from rfl, hcb])
          hrep2 with ⟨jn, h1, h2, h3⟩
        exact ⟨jn, h1, by omega, h3⟩
      · rw [if_neg hcc] at hrep
        have hj : j = i := by simpa using hrep.symm
        subst hj
        refine ⟨nn, hget, le_refl _, ?_⟩
        unfold pruneRep
        rw [replFun_stable wf m (b.depth + 1) (f + 1) hget (by omega) (by omega)]
        rw [replFun_internal hget hv, hr0, hr1]
        dsimp only
        rw [if_neg hcc]
  · rw [replFun_leaf hget hv] at hrep
    by_cases hvm : v = m
    · rw [if_pos hvm] at hrep
      cases hrep
    · rw [if_neg hvm] at hrep
      have hj : j = i := by simpa using hrep.symm
      subst hj
      refine ⟨nn, hget, le_refl _, ?_⟩
      unfold pruneRep
      rw [replFun_stable wf m (b.depth + 1) (f + 1) hget (by omega) (by omega)]
      rw [replFun_leaf hget hv, if_neg hvm]

theorem pruneNode_id (rep : Nat → Option Nat) (n : BNode) :
    (pruneNode rep n).id = n.id := rfl

theorem pruneNode_level (rep : Nat → Option Nat) (n : BNode) :
    (pruneNode rep n).level = n.level := rfl

theorem pruneNode_value (rep : Nat → Option Nat) (n : BNode) :
    (pruneNode rep n).value = n.value := rfl

theorem pruneNode_nbranch (rep : Nat → Option Nat) (n : BNode) (lb : Bool) :
    nbranch (pruneNode rep n) lb = (nbranch n lb).bind rep := by
  rcases lb with _ | _ <;> rfl

theorem mem_pruneMid {b : Bdd} {m : String} {n2 : BNode} :
    n2 ∈ pruneMid b m ↔ ∃ n ∈ b.nodes,
      (n.id = b.rootId ∨ pruneRep b m n.id = some n.id) ∧
      n2 = pruneNode (pruneRep b m) n := by
  unfold pruneMid
  simp only [List.mem_map, List.mem_filter, Bool.or_eq_true, beq_iff_eq]
  constructor
  · rintro ⟨n, ⟨hn, hc⟩, rfl⟩
    exact ⟨n, hn, hc, rfl⟩
  · rintro ⟨n, hn, hc, rfl⟩
    exact ⟨n, ⟨hn, hc⟩, rfl⟩

theorem pruneMid_nodup {b : Bdd} (nd : (b.nodes.map (fun n => n.id)).Nodup)
    (m : String) : ((pruneMid b m).map (fun n => n.id)).Nodup := by
  unfold pruneMid
  rw [List.map_map]
  have heq : ((b.nodes.filter (fun n =>
      n.id == b.rootId || pruneRep b m n.id == some n.id)).map
      ((fun n => n.id) ∘ pruneNode (pruneRep b m))) =
      (b.nodes.filter (fun n =>
        n.id == b.rootId || pruneRep b m n.id == some n.id)).map
        (fun n => n.id) := by
    apply List.map_congr_left
    intro a ha
    rfl
  rw [heq]
  exact List.Nodup.sublist ((List.filter_sublist _).map _) nd

theorem pruneRep_leaf_ne {b : Bdd} {m : String} {i : Nat} {n : BNode} {v : String}
    (hget : getNode b i = some n) (hv : n.value = some v)
    (hs : pruneRep b m i = some i) : v ≠ m := by
  unfold pruneRep at hs
  rw [replFun_leaf hget hv] at hs
  by_cases hvm : v = m
  · rw [if_pos hvm] at hs
    cases hs
  · exact hvm

theorem pruneRep_internal_survivor {b : Bdd} (wf : WF b) {m : String} {i : Nat}
    {n : BNode} (hget : getNode b i = some n) (hv : n.value = none)
    (hs : pruneRep b m i = some i) :
    ∃ c0 c1, n.b0.bind (pruneRep b m) = some c0 ∧
      n.b1.bind (pruneRep b m) = some c1 ∧ c0 ≠ c1 := by
  have hlev : n.level ≤ b.depth := wf.levelLe n (getNode_mem hget).1
  have hsw : ∀ lb cb, nbranch n lb = some cb →
      (cb.succ = cb.succ) ∧ replFun b m b.depth cb = pruneRep b m cb := by
    intro lb cb hbr
    rcases wf.closed n (getNode_mem hget).1 lb cb hbr with ⟨cn, hcn, hcid, hl⟩
    have hgetc : getNode b cb = some cn := by
      rw [← hcid]
      exact getNode_self wf hcn
    have hclev : cn.level ≤ b.depth := wf.levelLe cn hcn
    refine ⟨rfl, ?_⟩
    unfold pruneRep
    exact replFun_stable wf m b.depth (b.depth + 1) hgetc (by omega) (by omega)
  have hne : ∀ lb cb c2, nbranch n lb = some cb →
      replFun b m b.depth cb = some c2 → c2 ≠ i := by
    intro lb cb c2 hbr hrep2 he
    rcases wf.closed n (getNode_mem hget).1 lb cb hbr with ⟨cn, hcn, hcid, hl⟩
    have hgetc : getNode b cb = some cn := by
      rw [← hcid]
      exact getNode_self wf hcn
    have hclev : cn.level ≤ b.depth := wf.levelLe cn hcn
    rcases replFun_result wf m b.depth hgetc (by omega) hrep2 with ⟨jn, hjn, hjl, -⟩
    rw [he, hget] at hjn
    have : jn = n := (Option.some.inj hjn).symm
    rw [this] at hjl
    omega
  unfold pruneRep at hs
  rw [replFun_internal hget hv] at hs
  rcases hr0 : n.b0.bind (replFun b m b.depth) with _ | c0 <;>
    rcases hr1 : n.b1.bind (replFun b m b.depth) with _ | c1 <;>
    rw [hr0, hr1] at hs <;> dsimp only at hs
  · cases hs
  · -- a single surviving branch would replace the node, not keep it
    exfalso
    rcases Option.bind_eq_some.mp hr1 with ⟨cb, hcb, hrep2⟩
    apply hne true cb c1 (by rw [show nbranch n true = n.b1 from rfl, hcb]) hrep2
    simpa using hs
  · exfalso
    rcases Option.bind_eq_some.mp hr0 with ⟨cb, hcb, hrep2⟩
    apply hne false cb c0 (by rw [show nbranch n false = n.b0 from rfl, hcb]) hrep2
    simpa using hs
  · by_cases hcc : c0 = c1
    · exfalso
      rw [if_pos hcc] at hs
      rcases Option.bind_eq_some.mp hr0 with ⟨cb, hcb, hrep2⟩
      apply hne false cb c0 (by rw [show nbranch n false = n.b0 from rfl, hcb]) hrep2
      simpa using hs
    · refine ⟨c0, c1, ?_, ?_, hcc⟩
      · rcases Option.bind_eq_some.mp hr0 with ⟨cb, hcb, hrep2⟩
        rw [hcb]
        show pruneRep b m cb = some c0
        rw [← (hsw false cb (by rw [show nbranch n false = n.b0 from rfl, hcb])).2]
        exact hrep2
      · rcases Option.bind_eq_some.mp hr1 with ⟨cb, hcb, hrep2⟩
        rw [hcb]
        show pruneRep b m cb = some c1
        rw [← (hsw true cb (by rw [show nbranch n true = n.b1 from rfl, hcb])).2]
        exact hrep2

theorem mid_nodup {b : Bdd} (wf : WF b) (m : String) :
    ((midBdd b m).nodes.map (fun n => n.id)).Nodup :=
  pruneMid_nodup wf.nodup m

theorem mid_closed {b : Bdd} (wf : WF b) (m : String) :
    ∀ n2 ∈ (midBdd b m).nodes, ∀ lb c, nbranch n2 lb = some c →
      ∃ cn2 ∈ (midBdd b m).nodes, cn2.id = c ∧ n2.level < cn2.level := by
  intro n2 hn2 lb c hbr
  rcases mem_pruneMid.mp hn2 with ⟨n, hn, hcond, rfl⟩
  rw [pruneNode_nbranch] at hbr
  rcases Option.bind_eq_some.mp hbr with ⟨cb, hcb, hrep⟩
  rcases wf.closed n hn lb cb hcb with ⟨cn, hcn, hcid, hl⟩
  have hgetc : getNode b cb = some cn := by
    rw [← hcid]
    exact getNode_self wf hcn
  rcases replFun_result wf m (b.depth + 1) hgetc (by omega) hrep with
    ⟨jn, hjn, hjl, hsurv⟩
  refine ⟨pruneNode (pruneRep b m) jn, ?_, ?_, ?_⟩
  · refine mem_pruneMid.mpr ⟨jn, (getNode_mem hjn).1, Or.inr ?_, rfl⟩
    rw [(getNode_mem hjn).2]
    exact hsurv
  · rw [pruneNode_id]
    exact (getNode_mem hjn).2
  · rw [pruneNode_level, pruneNode_level]
    omega

theorem mid_levelLe {b : Bdd} (wf : WF b) (m : String) :
    ∀ n2 ∈ (midBdd b m).nodes, n2.level ≤ b.depth := by
  intro n2 hn2
  rcases mem_pruneMid.mp hn2 with ⟨n, hn, -, rfl⟩
  rw [pruneNode_level]
  exact wf.levelLe n hn

theorem mid_root {b : Bdd} (wf : WF b) (m : String) :
    ∃ r2 ∈ (midBdd b m).nodes, r2.id = b.rootId ∧ r2.level = 0 ∧
      r2.value = none := by
  rcases wf.root_mem with ⟨r, hr, hl, hv, -⟩
  refine ⟨pruneNode (pruneRep b m) r, ?_, ?_, ?_, ?_⟩
  · exact mem_pruneMid.mpr ⟨r, (getNode_mem hr).1, Or.inl (getNode_mem hr).2, rfl⟩
  · rw [pruneNode_id]
    exact (getNode_mem hr).2
  · rw [pruneNode_level]
    exact hl
  · rw [pruneNode_value]
    exact hv

theorem mid_reach_keep {b : Bdd} (wf : WF b) (m : String) {j : Nat}
    (hr : Reaches (midBdd b m) (midBdd b m).rootId j) : j ∈ pruneKeepIds b m := by
  rcases @reachIdsAux_complete (midBdd b m) (mid_closed wf m) (mid_nodup wf m) j hr
    with he | ⟨jn, hget, -, hmem⟩
  · rw [he]
    exact reachIdsAux_start _
  · have hlev : jn.level ≤ b.depth := mid_levelLe wf m jn (getNode_mem hget).1
    exact reachIdsAux_le (by omega) hmem

theorem mem_pruneKept {b : Bdd} {m : String} {n2 : BNode} :
    n2 ∈ pruneKept b m ↔ n2 ∈ pruneMid b m ∧ n2.id ∈ pruneKeepIds b m := by
  unfold pruneKept
  simp [List.mem_filter, List.elem_iff]

theorem kept_sound {b : Bdd} {m : String} {n2 : BNode} (h : n2 ∈ pruneKept b m) :
    Reaches (midBdd b m) b.rootId n2.id :=
  reachIdsAux_sound (b := midBdd b m) (b.depth + 1) (mem_pruneKept.mp h).2

theorem kept_closed {b : Bdd} (wf : WF b) (m : String) :
    ∀ n2 ∈ pruneKept b m, ∀ lb c, nbranch n2 lb = some c →
      ∃ cn2 ∈ pruneKept b m, cn2.id = c ∧ n2.level < cn2.level := by
  intro n2 hn2 lb c hbr
  rcases mid_closed wf m n2 (mem_pruneKept.mp hn2).1 lb c hbr with ⟨cn2, hcn2, hcid, hl⟩
  refine ⟨cn2, mem_pruneKept.mpr ⟨hcn2, ?_⟩, hcid, hl⟩
  rw [hcid]
  apply mid_reach_keep wf m
  exact Reaches.step (kept_sound hn2)
    (getNode_eq_some (b := midBdd b m) (mid_nodup wf m) (mem_pruneKept.mp hn2).1) hbr

theorem root_no_incoming_kept {b : Bdd} (wf : WF b) (m : String) :
    ∀ n2 ∈ pruneKept b m, n2.b0 ≠ some b.rootId ∧ n2.b1 ≠ some b.rootId := by
  rcases mid_root wf m with ⟨r2, hr2, hrid, hrl, -⟩
  intro n2 hn2
  constructor
  · intro he
    rcases mid_closed wf m n2 (mem_pruneKept.mp hn2).1 false b.rootId
      (by rw [show nbranch n2 false = n2.b0 from rfl, he]) with ⟨cn2, hcn2, hcid, hl⟩
    have : cn2 = r2 := mem_id_unique (mid_nodup wf m) hcn2 hr2 (by rw [hcid, hrid])
    rw [this, hrl] at hl
    omega
  · intro he
    rcases mid_closed wf m n2 (mem_pruneKept.mp hn2).1 true b.rootId
      (by rw [show nbranch n2 true = n2.b1 from rfl, he]) with ⟨cn2, hcn2, hcid, hl⟩
    have : cn2 = r2 := mem_id_unique (mid_nodup wf m) hcn2 hr2 (by rw [hcid, hrid])
    rw [this, hrl] at hl
    omega

theorem edgesIntoList_eq_nil {ns : List BNode} {c : Nat}
    (h : ∀ n ∈ ns, n.b0 ≠ some c ∧ n.b1 ≠ some c) : edgesIntoList ns c = [] := by
  induction ns with
  | nil => rfl
  | cons n t ih =>
    unfold edgesIntoList
    rw [List.flatMap_cons]
    have h0 : (n.b0 == some c) = false := by
      simpa using (h n (by simp)).1
    have h1 : (n.b1 == some c) = false := by
      simpa using (h n (by simp)).2
    rw [h0, h1]
    simp only [Bool.false_eq_true, if_false, List.nil_append]
    exact ih (fun n2 hn2 => h n2 (by simp [hn2]))

theorem removeIrrelevantLeafNodes_depth (m : String) (b : Bdd) :
    (removeIrrelevantLeafNodes m b).depth = b.depth := rfl

theorem removeIrrelevantLeafNodes_rootId (m : String) (b : Bdd) :
    (removeIrrelevantLeafNodes m b).rootId = b.rootId := rfl

theorem mem_prune_nodes {b : Bdd} {m : String} {n3 : BNode} :
    n3 ∈ (removeIrrelevantLeafNodes m b).nodes ↔
      ∃ n2 ∈ pruneKept b m,
        n3 = { n2 with parents := edgesIntoList (pruneKept b m) n2.id } := by
  unfold removeIrrelevantLeafNodes
  simp only [List.mem_map]
  constructor
  · rintro ⟨n2, hn2, rfl⟩
    exact ⟨n2, hn2, rfl⟩
  · rintro ⟨n2, hn2, rfl⟩
    exact ⟨n2, hn2, rfl⟩

theorem kept_nodup {b : Bdd} (wf : WF b) (m : String) :
    ((pruneKept b m).map (fun n => n.id)).Nodup := by
  unfold pruneKept
  exact List.Nodup.sublist ((List.filter_sublist _).map _) (mid_nodup wf m)

theorem prune_nodup {b : Bdd} (wf : WF b) (m : String) :
    (((removeIrrelevantLeafNodes m b).nodes).map (fun n => n.id)).Nodup := by
  show ((((pruneKept b m).map
    (fun n => { n with parents := edgesIntoList (pruneKept b m) n.id })).map
    (fun n => n.id)).Nodup)
  rw [List.map_map]
  exact kept_nodup wf m

theorem countEdges_prune_nodes {b : Bdd} (m : String) (p : Nat) (l : Bool)
    (c : Nat) : countEdges (removeIrrelevantLeafNodes m b).nodes p l c =
      countEdges (pruneKept b m) p l c := by
  show countEdges ((pruneKept b m).map
    (fun n => { n with parents := edgesIntoList (pruneKept b m) n.id })) p l c = _
  unfold countEdges
  rw [List.countP_map]
  apply List.countP_congr
  intro n2 hn2
  rcases l with _ | _ <;> rfl

theorem prune_reach_transfer {b : Bdd} (wf : WF b) (m : String) {j : Nat}
    (hr : Reaches (midBdd b m) b.rootId j) :
    Reaches (removeIrrelevantLeafNodes m b) b.rootId j := by
  induction hr with
  | refl => exact Reaches.refl _
  | @step j k nj lb hr2 hget hbr ih =>
    have hmemk : nj ∈ pruneKept b m := by
      refine mem_pruneKept.mpr ⟨(getNode_mem hget).1, ?_⟩
      rw [(getNode_mem hget).2]
      exact mid_reach_keep wf m hr2
    have hmem3 : { nj with parents := edgesIntoList (pruneKept b m) nj.id } ∈
        (removeIrrelevantLeafNodes m b).nodes :=
      mem_prune_nodes.mpr ⟨nj, hmemk, rfl⟩
    have hget3 : getNode (removeIrrelevantLeafNodes m b) j =
        some { nj with parents := edgesIntoList (pruneKept b m) nj.id } := by
      rw [← (getNode_mem hget).2]
      exact getNode_eq_some (prune_nodup wf m) hmem3
    refine Reaches.step (l := lb) ih hget3 ?_
    rcases lb with _ | _ <;> exact hbr

theorem removeIrrelevantLeafNodes_WF {b : Bdd} (wf : WF b) (m : String) :
    WF (removeIrrelevantLeafNodes m b) := by
  constructor
  · exact prune_nodup wf m
  · exact wf.dpos
  · rcases mid_root wf m with ⟨r2, hr2, hrid, hrl, hrv⟩
    have hkept : r2 ∈ pruneKept b m := by
      refine mem_pruneKept.mpr ⟨hr2, ?_⟩
      rw [hrid]
      exact reachIdsAux_start _
    refine ⟨{ r2 with parents := edgesIntoList (pruneKept b m) r2.id }, ?_, hrl, hrv, ?_⟩
    · show getNode _ b.rootId = _
      rw [← hrid]
      exact getNode_eq_some (prune_nodup wf m) (mem_prune_nodes.mpr ⟨r2, hkept, rfl⟩)
    · show edgesIntoList (pruneKept b m) r2.id = []
      rw [hrid]
      exact edgesIntoList_eq_nil (root_no_incoming_kept wf m)
  · intro n3 hn3 hl
    rcases mem_prune_nodes.mp hn3 with ⟨n2, hn2, rfl⟩
    rcases mem_pruneMid.mp (mem_pruneKept.mp hn2).1 with ⟨n, hn, -, rfl⟩
    show (pruneNode (pruneRep b m) n).id = b.rootId
    rw [pruneNode_id]
    exact wf.level0 n hn (by simpa using hl)
  · intro n3 hn3 lb c hbr
    rcases mem_prune_nodes.mp hn3 with ⟨n2, hn2, rfl⟩
    have hbr2 : nbranch n2 lb = some c := by
      rcases lb with _ | _ <;> exact hbr
    rcases kept_closed wf m n2 hn2 lb c hbr2 with ⟨cn2, hcn2, hcid, hlt⟩
    exact ⟨{ cn2 with parents := edgesIntoList (pruneKept b m) cn2.id },
      mem_prune_nodes.mpr ⟨cn2, hcn2, rfl⟩, hcid, hlt⟩
  · intro n3 hn3
    rcases mem_prune_nodes.mp hn3 with ⟨n2, hn2, rfl⟩
    rcases mem_pruneMid.mp (mem_pruneKept.mp hn2).1 with ⟨n, hn, -, rfl⟩
    show n.value.isSome ↔ n.level = b.depth
    exact wf.leafLevel n hn
  · intro n3 hn3
    rcases mem_prune_nodes.mp hn3 with ⟨n2, hn2, rfl⟩
    rcases mem_pruneMid.mp (mem_pruneKept.mp hn2).1 with ⟨n, hn, -, rfl⟩
    show n.level ≤ b.depth
    exact wf.levelLe n hn
  · intro n3 hn3 hv
    rcases mem_prune_nodes.mp hn3 with ⟨n2, hn2, rfl⟩
    rcases mem_pruneMid.mp (mem_pruneKept.mp hn2).1 with ⟨n, hn, -, rfl⟩
    have hnv : n.value.isSome := by simpa using hv
    rcases wf.leafNoBranch n hn hnv with ⟨h0, h1⟩
    constructor
    · show n.b0.bind (pruneRep b m) = none
      rw [h0]
      rfl
    · show n.b1.bind (pruneRep b m) = none
      rw [h1]
      rfl
  · intro n3 hn3 p l
    rcases mem_prune_nodes.mp hn3 with ⟨n2, hn2, rfl⟩
    show (edgesIntoList (pruneKept b m) n2.id).count (p, l) =
      countEdges (removeIrrelevantLeafNodes m b).nodes p l n2.id
    rw [count_edgesIntoList, countEdges_prune_nodes]
  · intro n3 hn3
    rcases mem_prune_nodes.mp hn3 with ⟨n2, hn2, rfl⟩
    show Reaches _ (removeIrrelevantLeafNodes m b).rootId n2.id
    exact prune_reach_transfer wf m (kept_sound hn2)

theorem nbranch_parents_rewrite (n : BNode) (ps : List (Nat × Bool)) (lb : Bool) :
    nbranch { n with parents := ps } lb = nbranch n lb := by
  rcases lb with _ | _ <;> rfl

theorem mid_getNode {b : Bdd} (wf : WF b) (m : String) {i : Nat} {nn : BNode}
    (hget : getNode b i = some nn)
    (hcond : i = b.rootId ∨ pruneRep b m i = some i) :
    getNode (midBdd b m) i = some (pruneNode (pruneRep b m) nn) := by
  have hid := (getNode_mem hget).2
  have hmemMid : pruneNode (pruneRep b m) nn ∈ (midBdd b m).nodes := by
    refine mem_pruneMid.mpr ⟨nn, (getNode_mem hget).1, ?_, rfl⟩
    rw [hid]
    exact hcond
  have h2 := getNode_eq_some (mid_nodup wf m) hmemMid
  rw [show (pruneNode (pruneRep b m) nn).id = i from hid] at h2
  exact h2

theorem prune_getNode_kept {b : Bdd} (wf : WF b) (m : String) {i : Nat} {nn : BNode}
    (hget : getNode b i = some nn)
    (hcond : i = b.rootId ∨ pruneRep b m i = some i)
    (hreach : Reaches (midBdd b m) b.rootId i) :
    getNode (removeIrrelevantLeafNodes m b) i =
      some { pruneNode (pruneRep b m) nn with
             parents := edgesIntoList (pruneKept b m) nn.id } := by
  have hid := (getNode_mem hget).2
  have hmemMid : pruneNode (pruneRep b m) nn ∈ pruneMid b m := by
    refine mem_pruneMid.mpr ⟨nn, (getNode_mem hget).1, ?_, rfl⟩
    rw [hid]
    exact hcond
  have hkeep : (pruneNode (pruneRep b m) nn).id ∈ pruneKeepIds b m := by
    rw [pruneNode_id, hid]
    exact mid_reach_keep wf m hreach
  have hkept : pruneNode (pruneRep b m) nn ∈ pruneKept b m :=
    mem_pruneKept.mpr ⟨hmemMid, hkeep⟩
  have hmem3 : { pruneNode (pruneRep b m) nn with
      parents := edgesIntoList (pruneKept b m) nn.id } ∈
      (removeIrrelevantLeafNodes m b).nodes :=
    mem_prune_nodes.mpr ⟨pruneNode (pruneRep b m) nn, hkept, rfl⟩
  have h2 : getNode (removeIrrelevantLeafNodes m b) nn.id =
      some { pruneNode (pruneRep b m) nn with
             parents := edgesIntoList (pruneKept b m) nn.id } :=
    getNode_eq_some (prune_nodup wf m) hmem3
  nth_rewrite 1 [hid] at h2
  exact h2

theorem child_replFun_depth {b : Bdd} (wf : WF b) (m : String) {nn : BNode}
    (hn : nn ∈ b.nodes) (lb : Bool) :
    (nbranch nn lb).bind (replFun b m b.depth) =
      (nbranch nn lb).bind (pruneRep b m) := by
  rcases hbr : nbranch nn lb with _ | cb
  · rfl
  · rcases wf.closed nn hn lb cb hbr with ⟨cn, hcn, hcid, hl⟩
    have hgetc : getNode b cb = some cn := by
      rw [← hcid]
      exact getNode_self wf hcn
    have hclev : cn.level ≤ b.depth := wf.levelLe cn hcn
    show replFun b m b.depth cb = pruneRep b m cb
    exact replFun_stable wf m b.depth (b.depth + 1) hgetc (by omega) (by omega)

theorem resolveNode_prune {b : Bdd} (wf : WF b) (m : String)
    (rs : ResolverFunctions) (s : List Bool) :
    ∀ f {i : Nat} {nn : BNode} {v : String}, getNode b i = some nn →
      b.depth + 1 - nn.level ≤ f → resolveNode b rs s f i = some v → v ≠ m →
      ∃ j, pruneRep b m i = some j ∧
        (Reaches (midBdd b m) b.rootId j →
          resolveNode (removeIrrelevantLeafNodes m b) rs s f j = some v) := by
  intro f
  induction f using Nat.strong_induction_on with
  | _ f ih =>
  intro i nn v hget hf hres hvm
  have hmem := (getNode_mem hget).1
  have hid : nn.id = i := (getNode_mem hget).2
  have hlev : nn.level ≤ b.depth := wf.levelLe nn hmem
  rcases f with _ | f
  · omega
  rcases hval : nn.value with _ | v0
  · -- internal node
    have h0 : nn.b0.bind (replFun b m b.depth) = nn.b0.bind (pruneRep b m) :=
      child_replFun_depth wf m hmem false
    have h1 : nn.b1.bind (replFun b m b.depth) = nn.b1.bind (pruneRep b m) :=
      child_replFun_depth wf m hmem true
    rcases hbr : nbranch nn (rs nn.level s) with _ | cb
    · rw [resolveNode_stuck hget hval hbr] at hres
      cases hres
    rw [resolveNode_internal hget hval hbr] at hres
    rcases wf.closed nn hmem _ cb hbr with ⟨cn, hcn, hcid, hcl⟩
    have hgetc : getNode b cb = some cn := by
      rw [← hcid]
      exact getNode_self wf hcn
    have hclev : cn.level ≤ b.depth := wf.levelLe cn hcn
    rcases ih f (by omega) hgetc (by omega) hres hvm with ⟨c2, hrepc, hcont⟩
    rcases hrb : rs nn.level s with _ | _
    · -- resolver took the 0 branch
      rw [hrb] at hbr
      have hb0 : nn.b0 = some cb := hbr
      have hbind0 : nn.b0.bind (pruneRep b m) = some c2 := by
        rw [hb0]
        exact hrepc
      rcases hbind1 : nn.b1.bind (pruneRep b m) with _ | c1
      · have hrepi : pruneRep b m i = some c2 := by
          unfold pruneRep
          rw [replFun_internal hget hval, h0, h1, hbind0, hbind1]
        exact ⟨c2, hrepi, fun hreach => resolveNode_mono (hcont hreach)⟩
      by_cases hcc : c2 = c1
      · have hrepi : pruneRep b m i = some c2 := by
          unfold pruneRep
          rw [replFun_internal hget hval, h0, h1, hbind0, hbind1]
          dsimp only
          rw [if_pos hcc]
        exact ⟨c2, hrepi, fun hreach => resolveNode_mono (hcont hreach)⟩
      · have hrepi : pruneRep b m i = some i := by
          unfold pruneRep
          rw [replFun_internal hget hval, h0, h1, hbind0, hbind1]
          dsimp only
          rw [if_neg hcc]
        refine ⟨i, hrepi, ?_⟩
        intro hreach
        have hgP := prune_getNode_kept wf m hget (Or.inr hrepi) hreach
        have hv3 : ({ pruneNode (pruneRep b m) nn with
            parents := edgesIntoList (pruneKept b m) nn.id }).value = none := hval
        have hbr3 : nbranch { pruneNode (pruneRep b m) nn with
            parents := edgesIntoList (pruneKept b m) nn.id }
            (rs ({ pruneNode (pruneRep b m) nn with
              parents := edgesIntoList (pruneKept b m) nn.id }).level s) = some c2 := by
          show nbranch { pruneNode (pruneRep b m) nn with
            parents := edgesIntoList (pruneKept b m) nn.id } (rs nn.level s) = some c2
          rw [nbranch_parents_rewrite, pruneNode_nbranch, hrb]
          exact hbind0
        rw [resolveNode_internal hgP hv3 hbr3]
        apply hcont
        refine Reaches.step (l := false) hreach
          (mid_getNode wf m hget (Or.inr hrepi)) ?_
        exact hbind0
    · -- resolver took the 1 branch
      rw [hrb] at hbr
      have hb1 : nn.b1 = some cb := hbr
      have hbind1 : nn.b1.bind (pruneRep b m) = some c2 := by
        rw [hb1]
        exact hrepc
      rcases hbind0 : nn.b0.bind (pruneRep b m) with _ | c0
      · have hrepi : pruneRep b m i = some c2 := by
          unfold pruneRep
          rw [replFun_internal hget hval, h0, h1, hbind0, hbind1]
        exact ⟨c2, hrepi, fun hreach => resolveNode_mono (hcont hreach)⟩
      by_cases hcc : c0 = c2
      · have hrepi : pruneRep b m i = some c2 := by
          unfold pruneRep
          rw [replFun_internal hget hval, h0, h1, hbind0, hbind1]
          dsimp only
          rw [if_pos hcc, hcc]
        exact ⟨c2, hrepi, fun hreach => resolveNode_mono (hcont hreach)⟩
      · have hrepi : pruneRep b m i = some i := by
          unfold pruneRep
          rw [replFun_internal hget hval, h0, h1, hbind0, hbind1]
          dsimp only
          rw [if_neg hcc]
        refine ⟨i, hrepi, ?_⟩
        intro hreach
        have hgP := prune_getNode_kept wf m hget (Or.inr hrepi) hreach
        have hv3 : ({ pruneNode (pruneRep b m) nn with
            parents := edgesIntoList (pruneKept b m) nn.id }).value = none := hval
        have hbr3 : nbranch { pruneNode (pruneRep b m) nn with
            parents := edgesIntoList (pruneKept b m) nn.id }
            (rs ({ pruneNode (pruneRep b m) nn with
              parents := edgesIntoList (pruneKept b m) nn.id }).level s) = some c2 := by
          show nbranch { pruneNode (pruneRep b m) nn with
            parents := edgesIntoList (pruneKept b m) nn.id } (rs nn.level s) = some c2
          rw [nbranch_parents_rewrite, pruneNode_nbranch, hrb]
          exact hbind1
        rw [resolveNode_internal hgP hv3 hbr3]
        apply hcont
        refine Reaches.step (l := true) hreach
          (mid_getNode wf m hget (Or.inr hrepi)) ?_
        exact hbind1
  · -- leaf node
    rw [resolveNode_leaf hget hval] at hres
    have hv0 : v0 = v := Option.some.inj hres
    have hrepi : pruneRep b m i = some i := by
      unfold pruneRep
      rw [replFun_leaf hget hval, if_neg (hv0 ▸ hvm)]
    refine ⟨i, hrepi, ?_⟩
    intro hreach
    have hgP := prune_getNode_kept wf m hget (Or.inr hrepi) hreach
    have hv3 : ({ pruneNode (pruneRep b m) nn with
        parents := edgesIntoList (pruneKept b m) nn.id }).value = some v0 := hval
    rw [resolveNode_leaf hgP hv3, hv0]

theorem resolve_prune {b : Bdd} (wf : WF b) (m : String) (rs : ResolverFunctions)
    (s : List Bool) {v : String} (hres : resolve b rs s = some v) (hvm : v ≠ m) :
    resolve (removeIrrelevantLeafNodes m b) rs s = some v := by
  rcases wf.root_mem with ⟨r, hr, hrl, hrv, -⟩
  unfold resolve at hres ⊢
  rw [removeIrrelevantLeafNodes_depth, removeIrrelevantLeafNodes_rootId]
  rcases hbr : nbranch r (rs r.level s) with _ | cb
  · rw [resolveNode_stuck hr hrv hbr] at hres
    cases hres
  rw [resolveNode_internal hr hrv hbr] at hres
  rcases wf.closed r (getNode_mem hr).1 _ cb hbr with ⟨cn, hcn, hcid, hcl⟩
  have hgetc : getNode b cb = some cn := by
    rw [← hcid]
    exact getNode_self wf hcn
  have hclev : cn.level ≤ b.depth := wf.levelLe cn hcn
  rcases resolveNode_prune wf m rs s b.depth hgetc (by omega) hres hvm with
    ⟨j, hrepc, hcont⟩
  have hgP := prune_getNode_kept wf m hr (Or.inl rfl) (Reaches.refl _)
  have hv3 : ({ pruneNode (pruneRep b m) r with
      parents := edgesIntoList (pruneKept b m) r.id }).value = none := hrv
  have hbr3 : nbranch { pruneNode (pruneRep b m) r with
      parents := edgesIntoList (pruneKept b m) r.id }
      (rs ({ pruneNode (pruneRep b m) r with
        parents := edgesIntoList (pruneKept b m) r.id }).level s) = some j := by
    show nbranch { pruneNode (pruneRep b m) r with
      parents := edgesIntoList (pruneKept b m) r.id } (rs r.level s) = some j
    rw [nbranch_parents_rewrite, pruneNode_nbranch, hbr]
    exact hrepc
  rw [resolveNode_internal hgP hv3 hbr3]
  apply hcont
  refine Reaches.step (l := rs r.level s) (Reaches.refl _)
    (mid_getNode wf m hr (Or.inl rfl)) ?_
  rw [pruneNode_nbranch, hbr]
  exact hrepc

theorem toJSONNode_nofind {b : Bdd} {f i : Nat} (h : getNode b i = none) :
    toJSONNode b (f + 1) i = .jmissing := by
  rw [toJSONNode, h]

theorem toJSONNode_leaf {b : Bdd} {f i : Nat} {n : BNode} {v : String}
    (hget : getNode b i = some n) (hv : n.value = some v) :
    toJSONNode b (f + 1) i = .jleaf n.id v := by
  rw [toJSONNode, hget]
  dsimp only
  rw [hv]

theorem toJSONNode_internal {b : Bdd} {f i : Nat} {n : BNode}
    (hget : getNode b i = some n) (hv : n.value = none) :
    toJSONNode b (f + 1) i = .jnode n.id
      (match n.b0 with | some c => toJSONNode b f c | none => .jmissing)
      (match n.b1 with | some c => toJSONNode b f c | none => .jmissing) := by
  rw [toJSONNode, hget]
  dsimp only
  rw [hv]

theorem prune_leaf_ne {b : Bdd} (wf : WF b) (m : String) :
    ∀ n3 ∈ (removeIrrelevantLeafNodes m b).nodes, ∀ v, n3.value = some v →
      v ≠ m := by
  intro n3 hn3 v hv
  rcases mem_prune_nodes.mp hn3 with ⟨n2, hn2, rfl⟩
  rcases mem_pruneMid.mp (mem_pruneKept.mp hn2).1 with ⟨n, hn, hcond, rfl⟩
  have hnv : n.value = some v := hv
  rcases hcond with hroot | hsurv
  · rcases wf.root_mem with ⟨r, hr, hrl, hrv, -⟩
    have he : n = r := mem_id_unique wf.nodup hn (getNode_mem hr).1
      (by rw [hroot, (getNode_mem hr).2])
    rw [he, hrv] at hnv
    cases hnv
  · exact pruneRep_leaf_ne (getNode_self wf hn) hnv hsurv

theorem jtreeHasValue_prune_aux {b : Bdd} (wf : WF b) (m : String) :
    ∀ f i, jtreeHasValue m
      (toJSONNode (removeIrrelevantLeafNodes m b) f i) = false := by
  intro f
  induction f with
  | zero => intro i; rfl
  | succ f ih =>
    intro i
    rcases hget : getNode (removeIrrelevantLeafNodes m b) i with _ | n
    · rw [toJSONNode_nofind hget]
      rfl
    rcases hval : n.value with _ | v
    · rw [toJSONNode_internal hget hval]
      rcases hb0 : n.b0 with _ | c0 <;> rcases hb1 : n.b1 with _ | c1 <;>
        dsimp only <;>
        simp only [jtreeHasValue, ih, Bool.or_false, Bool.false_or, Bool.or_self]
    · rw [toJSONNode_leaf hget hval]
      have hne := prune_leaf_ne wf m n (getNode_mem hget).1 v hval
      show (v == m) = false
      simpa using hne

theorem jtreeHasValue_prune {b : Bdd} (wf : WF b) (m : String) :
    jtreeHasValue m (toJSON (removeIrrelevantLeafNodes m b)) = false :=
  jtreeHasValue_prune_aux wf m _ _

theorem minimize_resolve {b : Bdd} (wf : WF b) (u : Bool) {rs : ResolverFunctions}
    {s : List Bool} {v : String} (h : resolve b rs s = some v) :
    resolve (minimize b u) rs s = some v := by
  obtain ⟨-, -, hd, -, hres⟩ := minimize_props wf u
  unfold resolve at h ⊢
  rw [hd]
  exact hres rs s (b.depth + 1) v h

theorem minimizeRec_len_eq {fuel : Nat} {b : Bdd} (wf : WF b)
    (h : (minimizeRec (fuel + 1) b).nodes.length = b.nodes.length) :
    minimizePass b = b := by
  rw [minimizeRec] at h
  obtain ⟨p1, p2, p3, -⟩ := minimizePass_props wf
  by_cases hlt : (minimizePass b).nodes.length < b.nodes.length
  · rw [if_pos hlt] at h
    have := (minimizeRec_props fuel p1).2.1
    omega
  · exact p3 (by omega)

theorem minimize_strict {n : Nat} {t : List Bool → String} (h1 : 1 ≤ n)
    {k1 k2 : List Bool} (hl1 : k1.length = n) (hl2 : k2.length = n)
    (hne : k1 ≠ k2) (hv : t k1 = t k2) :
    countNodes (minimize (createBddFromTruthTable n t) true) <
      countNodes (createBddFromTruthTable n t) := by
  have wf := build_WF t h1
  by_contra hge
  have hle := (minimizeRec_props
    ((createBddFromTruthTable n t).nodes.length + 1) wf).2.1
  have heq : (minimizeRec ((createBddFromTruthTable n t).nodes.length + 1)
      (createBddFromTruthTable n t)).nodes.length =
      (createBddFromTruthTable n t).nodes.length := by
    unfold countNodes at hge
    have hh : minimize (createBddFromTruthTable n t) true =
        minimizeRec ((createBddFromTruthTable n t).nodes.length + 1)
          (createBddFromTruthTable n t) := rfl
    rw [hh] at hge
    omega
  have hfix := minimizeRec_len_eq wf heq
  obtain ⟨hnosim, -⟩ := fixpoint_consequences wf hfix
  have hm1 : mkNode n t n (keyVal k1) ∈ (createBddFromTruthTable n t).nodes :=
    mem_build_iff.mpr ⟨n, le_refl n, keyVal k1, hl1 ▸ keyVal_lt, rfl⟩
  have hm2 : mkNode n t n (keyVal k2) ∈ (createBddFromTruthTable n t).nodes :=
    mem_build_iff.mpr ⟨n, le_refl n, keyVal k2, hl2 ▸ keyVal_lt, rfl⟩
  have hkne : keyVal k1 ≠ keyVal k2 := by
    intro he
    exact hne (keyVal_inj (by omega) he)
  have hxne : mkNode n t n (keyVal k1) ≠ mkNode n t n (keyVal k2) := by
    intro he
    have : (mkNode n t n (keyVal k1)).id = (mkNode n t n (keyVal k2)).id := by
      rw [he]
    rw [mkNode_id, mkNode_id] at this
    exact hkne (idOf_inj (hl1 ▸ keyVal_lt) (hl2 ▸ keyVal_lt) this).2
  have hsim : isSimilarNode (mkNode n t n (keyVal k1))
      (mkNode n t n (keyVal k2)) = true := by
    apply (isSimilarNode_true_iff _ _).mpr
    rw [mkNode_level, mkNode_level]
    refine ⟨by omega, by omega, rfl, Or.inl ⟨t k1, ?_, ?_⟩⟩
    · show (if n = n then some (t (pathOf n (keyVal k1))) else none) = some (t k1)
      rw [if_pos rfl]
      rw [show pathOf n (keyVal k1) = k1 from hl1 ▸ pathOf_keyVal]
    · show (if n = n then some (t (pathOf n (keyVal k2))) else none) = some (t k1)
      rw [if_pos rfl]
      rw [show pathOf n (keyVal k2) = k2 from hl2 ▸ pathOf_keyVal, ← hv]
  have := hnosim _ hm1 _ hm2 hxne
  rw [this] at hsim
  cases hsim

theorem build_no_equal_branches {n : Nat} {t : List Bool → String}
    (x : BNode) (hx : x ∈ (createBddFromTruthTable n t).nodes) :
    hasEqualBranches x = false := by
  rcases mem_build_iff.mp hx with ⟨l, hl, v, hvlt, rfl⟩
  rcases heb : hasEqualBranches (mkNode n t l v) with _ | _
  · rfl
  exfalso
  rcases (hasEqualBranches_true_iff _).mp heb with ⟨a, hb0, hb1⟩
  by_cases hln : l = n
  · rw [show (mkNode n t l v).b0 = (if l = n then none else
      some (idOf (l + 1) (2 * v))) from rfl, if_pos hln] at hb0
    cases hb0
  · rw [show (mkNode n t l v).b0 = (if l = n then none else
      some (idOf (l + 1) (2 * v))) from rfl, if_neg hln] at hb0
    rw [show (mkNode n t l v).b1 = (if l = n then none else
      some (idOf (l + 1) (2 * v + 1))) from rfl, if_neg hln] at hb1
    have h2 : idOf (l + 1) (2 * v) = idOf (l + 1) (2 * v + 1) := by
      rw [Option.some.inj hb0, Option.some.inj hb1]
    have hlt0 : 2 * v < 2 ^ (l + 1) := by
      rw [pow_succ]
      omega
    have hlt1 : 2 * v + 1 < 2 ^ (l + 1) := by
      rw [pow_succ]
      omega
    have := (idOf_inj hlt0 hlt1 h2).2
    omega

theorem find?_split {α : Type} (p : α → Bool) :
    ∀ (l : List α) (y : α), l.find? p = some y →
      p y = true ∧ ∃ l1 l2, l = l1 ++ y :: l2 ∧ ∀ z ∈ l1, p z = false := by
  intro l
  induction l with
  | nil =>
    intro y h
    cases h
  | cons a tl ih =>
    intro y h
    rcases hp : p a with _ | _
    · rw [List.find?_cons_of_neg _ (by simp [hp])] at h
      rcases ih y h with ⟨hy, l1, l2, rfl, hall⟩
      refine ⟨hy, a :: l1, l2, rfl, ?_⟩
      intro z hz
      rcases List.mem_cons.mp hz with rfl | hz2
      · exact hp
      · exact hall z hz2
    · rw [List.find?_cons_of_pos _ hp] at h
      cases h
      exact ⟨hp, [], tl, rfl, by intro z hz; cases hz⟩

/-- C1: for every truth table over `n` bits (`1 ≤ n ≤ 12`) and every key of
length `n`, with resolvers returning the key's bits, the built diagram
resolves the key to its table value, and the identity persists after
`minimize` and after `removeIrrelevantLeafNodes` for keys whose value is not
the pruned marker. -/
theorem resolve_identity_through_minimize_and_prune
    (n : Nat) (t : List Bool → String) (rs : ResolverFunctions) (k : List Bool)
    (m : String) (h1 : 1 ≤ n) (h12 : n ≤ 12) (hk : k.length = n)
    (hrs : ∀ i, i < n → rs i k = k.getD i false) :
    resolve (createBddFromTruthTable n t) rs k = some (t k) ∧
    resolve (minimize (createBddFromTruthTable n t) true) rs k = some (t k) ∧
    (t k ≠ m →
      resolve (removeIrrelevantLeafNodes m (createBddFromTruthTable n t)) rs k =
        some (t k)) := by
  have hb := build_resolve (t := t) hk hrs
  exact ⟨hb, minimize_resolve (build_WF t h1) true hb,
    fun hm => resolve_prune (build_WF t h1) m rs k hb hm⟩

/-- C1 witness: the identity at depth 2, the mixed table, bit resolvers, the
key [true, false] and the marker "zzz". -/
theorem resolve_identity_instance :
    resolve (createBddFromTruthTable 2 mixedTable) bitResolvers [true, false] =
      some (mixedTable [true, false]) ∧
    resolve (minimize (createBddFromTruthTable 2 mixedTable) true) bitResolvers
      [true, false] = some (mixedTable [true, false]) ∧
    (mixedTable [true, false] ≠ "zzz" →
      resolve (removeIrrelevantLeafNodes "zzz"
        (createBddFromTruthTable 2 mixedTable)) bitResolvers [true, false] =
        some (mixedTable [true, false])) :=
  resolve_identity_through_minimize_and_prune 2 mixedTable bitResolvers
    [true, false] "zzz" (by decide) (by decide) (by decide) (fun i _ => rfl)

/-- C2 (amended): after `removeIrrelevantLeafNodes m` on a built diagram, no
leaf of the diagram carries the marker value, and no leaf of the serialized
tree carries it either — value-level absence, which is what the pruning
guarantees; the serialized string can still contain the marker as a substring
of another leaf's value. -/
theorem prune_removes_marker_leaves
    (n : Nat) (t : List Bool → String) (m : String) (h1 : 1 ≤ n) :
    (∀ x ∈ (removeIrrelevantLeafNodes m (createBddFromTruthTable n t)).nodes,
      ∀ v, x.value = some v → v ≠ m) ∧
    jtreeHasValue m (toJSON (removeIrrelevantLeafNodes m
      (createBddFromTruthTable n t))) = false :=
  ⟨prune_leaf_ne (build_WF t h1) m, jtreeHasValue_prune (build_WF t h1) m⟩

/-- C2 witness: marker absence at depth 1 with the table having leaves "a"
and "ab" and the marker "a". -/
theorem prune_removes_marker_leaves_instance :
    (∀ x ∈ (removeIrrelevantLeafNodes "a" (createBddFromTruthTable 1 abTable)).nodes,
      ∀ v, x.value = some v → v ≠ "a") ∧
    jtreeHasValue "a" (toJSON (removeIrrelevantLeafNodes "a"
      (createBddFromTruthTable 1 abTable))) = false :=
  prune_removes_marker_leaves 1 abTable "a" (by decide)

/-- C2 counterexample: with marker "a" and the depth-1 table sending [true] to
"a" and [false] to "ab", pruning removes the "a" leaf, yet the serialized
string of the remaining diagram still contains "a" — as a substring of the
surviving leaf value "ab" — so the claimed substring-level absence fails. -/
theorem prune_serialized_contains_marker_substring :
    strContains (jsonStringOf (toJSON (removeIrrelevantLeafNodes "a"
      (createBddFromTruthTable 1 abTable)))) "a" = true := by
  decide

/-- C3: after `minimize(untilDone = true)` on a built diagram, no two distinct
nodes are similar, no internal node has its two branches on the same child,
and in particular an internal node whose two children are leaves has children
with different values. -/
theorem minimize_no_similar_no_equal_branches
    (n : Nat) (t : List Bool → String) (h1 : 1 ≤ n) :
    (∀ x ∈ (minimize (createBddFromTruthTable n t) true).nodes,
      ∀ y ∈ (minimize (createBddFromTruthTable n t) true).nodes,
        x ≠ y → isSimilarNode x y = false) ∧
    (∀ x ∈ (minimize (createBddFromTruthTable n t) true).nodes,
      x.value = none → x.level ≠ 0 → hasEqualBranches x = false) ∧
    (∀ x ∈ (minimize (createBddFromTruthTable n t) true).nodes,
      x.value = none → x.level ≠ 0 →
      ∀ c0 c1 n0 n1 v0 v1, x.b0 = some c0 → x.b1 = some c1 →
        getNode (minimize (createBddFromTruthTable n t) true) c0 = some n0 →
        getNode (minimize (createBddFromTruthTable n t) true) c1 = some n1 →
        n0.value = some v0 → n1.value = some v1 → v0 ≠ v1) := by
  have hwf := (minimize_props (build_WF t h1) true).1
  obtain ⟨hns, hne⟩ :=
    fixpoint_consequences hwf (minimize_fixpoint (build_WF t h1))
  refine ⟨hns, hne, ?_⟩
  intro x hx hxv hxl c0 c1 n0 n1 v0 v1 hb0 hb1 hg0 hg1 hv0 hv1 hvv
  by_cases hcc : c0 = c1
  · have heb : hasEqualBranches x = true :=
      (hasEqualBranches_true_iff x).mpr ⟨c0, hb0, by rw [hb1, hcc]⟩
    rw [hne x hx hxv hxl] at heb
    cases heb
  · have hn01 : n0 ≠ n1 := by
      intro he
      apply hcc
      rw [← (getNode_mem hg0).2, ← (getNode_mem hg1).2, he]
    have hdp : 0 < (minimize (createBddFromTruthTable n t) true).depth := hwf.dpos
    have hl0 : n0.level = (minimize (createBddFromTruthTable n t) true).depth :=
      (hwf.leafLevel n0 (getNode_mem hg0).1).mp (by rw [hv0]; rfl)
    have hl1 : n1.level = (minimize (createBddFromTruthTable n t) true).depth :=
      (hwf.leafLevel n1 (getNode_mem hg1).1).mp (by rw [hv1]; rfl)
    have hsim : isSimilarNode n0 n1 = true := by
      apply (isSimilarNode_true_iff n0 n1).mpr
      refine ⟨by omega, by omega, by omega, Or.inl ⟨v0, hv0, ?_⟩⟩
      rw [hv1, hvv]
    rw [hns n0 (getNode_mem hg0).1 n1 (getNode_mem hg1).1 hn01] at hsim
    cases hsim

/-- C3 witness: the fixed-point properties at depth 2 on the mixed table. -/
theorem minimize_no_similar_instance :
    (∀ x ∈ (minimize (createBddFromTruthTable 2 mixedTable) true).nodes,
      ∀ y ∈ (minimize (createBddFromTruthTable 2 mixedTable) true).nodes,
        x ≠ y → isSimilarNode x y = false) ∧
    (∀ x ∈ (minimize (createBddFromTruthTable 2 mixedTable) true).nodes,
      x.value = none → x.level ≠ 0 → hasEqualBranches x = false) ∧
    (∀ x ∈ (minimize (createBddFromTruthTable 2 mixedTable) true).nodes,
      x.value = none → x.level ≠ 0 →
      ∀ c0 c1 n0 n1 v0 v1, x.b0 = some c0 → x.b1 = some c1 →
        getNode (minimize (createBddFromTruthTable 2 mixedTable) true) c0 = some n0 →
        getNode (minimize (createBddFromTruthTable 2 mixedTable) true) c1 = some n1 →
        n0.value = some v0 → n1.value = some v1 → v0 ≠ v1) :=
  minimize_no_similar_no_equal_branches 2 mixedTable (by decide)

/-- C4 (amended): every public operation on a built diagram — the build
itself, `applyReductionRule`, `applyEliminationRule`, `minimize` and
`removeIrrelevantLeafNodes` — leaves a diagram accepted by the validator with
the level check relaxed to "every edge strictly increases the level"; the
literal section 4.6 check (child exactly one level below) is violated by the
elimination rule's level-skipping edges. -/
theorem public_operations_preserve_monotone_validator
    (n : Nat) (t : List Bool → String) (x : Nat) (u : Bool) (m : String)
    (h1 : 1 ≤ n) :
    ensureCorrectBddMonotone (createBddFromTruthTable n t) = true ∧
    ensureCorrectBddMonotone
      (applyReductionRule (createBddFromTruthTable n t) x) = true ∧
    ensureCorrectBddMonotone
      (applyEliminationRule (createBddFromTruthTable n t) x) = true ∧
    ensureCorrectBddMonotone (minimize (createBddFromTruthTable n t) u) = true ∧
    ensureCorrectBddMonotone
      (removeIrrelevantLeafNodes m (createBddFromTruthTable n t)) = true :=
  ⟨WF_ensureCorrectBddMonotone (build_WF t h1),
   WF_ensureCorrectBddMonotone (applyReductionRule_WF (build_WF t h1) x),
   WF_ensureCorrectBddMonotone (applyEliminationRule_WF (build_WF t h1) x),
   WF_ensureCorrectBddMonotone ((minimize_props (build_WF t h1) u).1),
   WF_ensureCorrectBddMonotone (removeIrrelevantLeafNodes_WF (build_WF t h1) m)⟩

/-- C4 witness: the relaxed validator accepts all five operations at depth 2
on the all-equal table. -/
theorem monotone_validator_instance :
    ensureCorrectBddMonotone (createBddFromTruthTable 2 allEqualTable) = true ∧
    ensureCorrectBddMonotone
      (applyReductionRule (createBddFromTruthTable 2 allEqualTable) 1) = true ∧
    ensureCorrectBddMonotone
      (applyEliminationRule (createBddFromTruthTable 2 allEqualTable) 1) = true ∧
    ensureCorrectBddMonotone
      (minimize (createBddFromTruthTable 2 allEqualTable) true) = true ∧
    ensureCorrectBddMonotone
      (removeIrrelevantLeafNodes "a" (createBddFromTruthTable 2 allEqualTable)) =
      true :=
  public_operations_preserve_monotone_validator 2 allEqualTable 1 true "a"
    (by decide)

/-- C4 counterexample: the literal section 4.6 validator — every child exactly
one level below its parent — rejects the diagram that `minimize` leaves on the
all-equal depth-2 table, where elimination makes the root point directly at a
leaf two levels below. -/
theorem strict_validator_fails_after_minimize :
    ensureCorrectBdd (minimize (createBddFromTruthTable 2 allEqualTable) true) =
      false := by
  decide

/-- C5: `minimize(untilDone = true)` never increases the node count of a built
diagram, and strictly decreases it whenever the table carries a redundancy —
two distinct keys mapped to one value. -/
theorem minimize_shrinks_node_count
    (n : Nat) (t : List Bool → String) (h1 : 1 ≤ n) :
    countNodes (minimize (createBddFromTruthTable n t) true) ≤
      countNodes (createBddFromTruthTable n t) ∧
    ∀ k1 k2 : List Bool, k1.length = n → k2.length = n → k1 ≠ k2 →
      t k1 = t k2 →
      countNodes (minimize (createBddFromTruthTable n t) true) <
        countNodes (createBddFromTruthTable n t) :=
  ⟨(minimize_props (build_WF t h1) true).2.1,
   fun k1 k2 hl1 hl2 hne hv => minimize_strict h1 hl1 hl2 hne hv⟩

/-- C5 witness: at depth 2 on the all-equal table the count does not grow, and
the redundant keys [false, false] and [false, true] force a strict drop. -/
theorem minimize_shrinks_instance :
    countNodes (minimize (createBddFromTruthTable 2 allEqualTable) true) ≤
      countNodes (createBddFromTruthTable 2 allEqualTable) ∧
    countNodes (minimize (createBddFromTruthTable 2 allEqualTable) true) <
      countNodes (createBddFromTruthTable 2 allEqualTable) :=
  ⟨(minimize_shrinks_node_count 2 allEqualTable (by decide)).1,
   (minimize_shrinks_node_count 2 allEqualTable (by decide)).2
     [false, false] [false, true] (by decide) (by decide) (by decide) rfl⟩

/-- C6: `findSimilarNode(x, cands)` returns the first candidate that is
similar to `x` and is not `x` itself, and none when no such candidate exists;
similarity holds exactly for same-level non-root nodes that are leaves of
equal value or internals with identical children on both labels; in
particular `findSimilarNode(x, [x])` and `findSimilarNode(x, [root])` are
none. -/
theorem findSimilarNode_characterization (x : BNode) (cands : List BNode) :
    (∀ y, findSimilarNode x cands = some y →
      y ∈ cands ∧ isSimilarNode x y = true ∧ y.id ≠ x.id ∧
      ∃ l1 l2, cands = l1 ++ y :: l2 ∧
        ∀ z ∈ l1, isSimilarNode x z = false ∨ z.id = x.id) ∧
    (findSimilarNode x cands = none ↔
      ∀ y ∈ cands, ¬(isSimilarNode x y = true ∧ y.id ≠ x.id)) ∧
    (∀ y, isSimilarNode x y = true ↔
      (x.level ≠ 0 ∧ y.level ≠ 0 ∧ x.level = y.level ∧
       ((∃ v, x.value = some v ∧ y.value = some v) ∨
        (x.value = none ∧ y.value = none ∧ x.b0 = y.b0 ∧ x.b1 = y.b1 ∧
         x.b0.isSome ∧ x.b1.isSome)))) ∧
    findSimilarNode x [x] = none ∧
    (∀ r, r.level = 0 → findSimilarNode x [r] = none) := by
  refine ⟨?_, findSimilarNode_none_iff, fun y => isSimilarNode_true_iff x y,
    ?_, ?_⟩
  · intro y h
    obtain ⟨hmem, hsim, hne⟩ := findSimilarNode_mem h
    refine ⟨hmem, hsim, hne, ?_⟩
    obtain ⟨-, l1, l2, heq, hall⟩ := find?_split _ cands y h
    refine ⟨l1, l2, heq, ?_⟩
    intro z hz
    have hfz := hall z hz
    by_cases hs : isSimilarNode x z = true
    · right
      rw [hs] at hfz
      simpa using hfz
    · left
      simpa using hs
  · show List.find? _ [x] = none
    rw [List.find?_cons_of_neg _ (by simp)]
    rfl
  · intro r hr
    have hs : isSimilarNode x r = false := by
      rcases hs2 : isSimilarNode x r with _ | _
      · rfl
      · obtain ⟨-, hr0, -⟩ := (isSimilarNode_true_iff x r).mp hs2
        exact absurd hr hr0
    show List.find? _ [r] = none
    rw [List.find?_cons_of_neg _ (by simp [hs])]
    rfl

/-- C7: `hasEqualBranches` is true exactly when both branches hold the same
node by identity (one shared identifier), and on a freshly built diagram —
whose builder creates a fresh node per path — it is false at every node. -/
theorem hasEqualBranches_identity_and_fresh_build :
    (∀ x : BNode, (hasEqualBranches x = true ↔
      ∃ a, x.b0 = some a ∧ x.b1 = some a)) ∧
    ∀ (n : Nat) (t : List Bool → String),
      ∀ x ∈ (createBddFromTruthTable n t).nodes, hasEqualBranches x = false :=
  ⟨hasEqualBranches_true_iff, fun n t x hx => build_no_equal_branches x hx⟩

/-- C8 (amended): on the all-equal depth-4 table, `applyReductionRule` at the
first node of level 2 is a no-op — sibling subtrees are structurally equal but
are distinct nodes, so no similar node is found — the validator still passes,
and the path 0.0 still reaches an internal node, not a leaf. -/
theorem reduction_on_all_equal_depth4_is_noop :
    applyReductionRule (createBddFromTruthTable 4 allEqualTable) 3 =
      createBddFromTruthTable 4 allEqualTable ∧
    ensureCorrectBdd
      (applyReductionRule (createBddFromTruthTable 4 allEqualTable) 3) = true ∧
    (followPath (applyReductionRule (createBddFromTruthTable 4 allEqualTable) 3)
      [false, false]).map isLeafNode = some false :=
  ⟨by decide, by decide, by decide⟩

/-- C8 counterexample: after that call the branch below the first level-2 node
— the test's root.0.0.0 — is still not a leaf, against the claimed collapse. -/
theorem reduction_does_not_create_level2_leaf :
    (followPath (applyReductionRule (createBddFromTruthTable 4 allEqualTable) 3)
      [false, false, false]).map isLeafNode = some false := by
  decide

/-- C9: for an UPDATE change event carrying both doc and previous,
`sortParamsChanged` is true exactly when some sort field's value differs
between doc and previous, and false when they agree on every sort field. -/
theorem sortParamsChanged_iff_sort_field_differs
    (input : StateResolveFunctionInput) (d p : Doc)
    (hop : input.changeEvent.operation = Operation.UPDATE)
    (hd : input.changeEvent.doc = some d)
    (hp : input.changeEvent.previous = some p) :
    (sortParamsChanged input = true ↔
      ∃ f ∈ input.queryParams.sortFields, d f ≠ p f) ∧
    ((∀ f ∈ input.queryParams.sortFields, d f = p f) →
      sortParamsChanged input = false) := by
  unfold sortParamsChanged
  rw [hd, hp]
  constructor
  · rw [List.any_eq_true]
    constructor
    · rintro ⟨f, hf, hne⟩
      refine ⟨f, hf, ?_⟩
      simpa [docOrEmpty] using hne
    · rintro ⟨f, hf, hne⟩
      refine ⟨f, hf, ?_⟩
      simpa [docOrEmpty] using hne
  · intro hall
    rw [List.any_eq_false]
    intro f hf
    simp [docOrEmpty, hall f hf]

/-- C9 witness: the classifier at two concrete UPDATE inputs sorting on "age":
false when doc and previous agree on it, true when they differ. -/
theorem sortParamsChanged_instance :
    sortParamsChanged sameAgeInput = false ∧
    sortParamsChanged diffAgeInput = true := by
  constructor
  · exact (sortParamsChanged_iff_sort_field_differs sameAgeInput (ageDoc "1")
      (ageDoc "1") rfl rfl rfl).2 (fun f hf => rfl)
  · exact (sortParamsChanged_iff_sort_field_differs diffAgeInput (ageDoc "2")
      (ageDoc "1") rfl rfl rfl).1.mpr ⟨"age", by decide, by decide⟩

/-- C10: the classifier's predicate list and resolver map agree in size, and
`getStateSet` always returns one bit per predicate of `orderedStateList`. -/
theorem classifier_sizes_agree :
    orderedStateList.length = stateResolveFunctions.length ∧
    ∀ input : StateResolveFunctionInput,
      (getStateSet input).length = orderedStateList.length := by
  constructor
  · rfl
  · intro input
    unfold getStateSet
    rw [List.length_map]
